import Mathlib

/-!
Verification of the sql-mirror migration tool (src/lib/SQLMirrorMigrator.js and
src/lib/generateSqlFileContent.js) against its specification.

Strings are modelled as lists of characters (`Str`).  JavaScript library
functions used by the source (String.prototype.split, path.parse, the semver
package, the snake-case package, the topological-sort package) are embedded as
executable Lean functions on `Str`, faithful to their behaviour on the inputs
the tool produces.
-/

set_option maxHeartbeats 1000000

abbrev Str := List Char

namespace SqlMirror

/-! ### Character classes (ASCII, as in the JavaScript regexes involved) -/

def isDigitCh (c : Char) : Bool := decide ('0' ≤ c) && decide (c ≤ '9')

def isAlphaCh (c : Char) : Bool :=
  (decide ('a' ≤ c) && decide (c ≤ 'z')) || (decide ('A' ≤ c) && decide (c ≤ 'Z'))

/-- `[A-Za-z0-9]`, the character class kept by the snake-case word splitter
and allowed inside semver identifiers. -/
def isAlnum (c : Char) : Bool := isAlphaCh c || isDigitCh c

def isUpperCh (c : Char) : Bool := decide ('A' ≤ c) && decide (c ≤ 'Z')

def isLowerCh (c : Char) : Bool := decide ('a' ≤ c) && decide (c ≤ 'z')

/-! ### JavaScript string helpers -/

/-- `str.slice(0, i)` and `str.slice(i)` as used by `splitAtIndex` in
SQLMirrorMigrator.js (lines 448-452). -/
def splitAtIndex (s : Str) (i : Nat) : Str × Str := (s.take i, s.drop i)

/-- `filename.split("__")`: JavaScript `String.prototype.split` with the
two-character separator `__`, scanning left to right. -/
def splitUU : Str → List Str
  | [] => [[]]
  | [c] => [[c]]
  | c :: d :: rest =>
    if c = '_' ∧ d = '_' then [] :: splitUU rest
    else
      match splitUU (d :: rest) with
      | [] => [[c]]
      | p :: ps => (c :: p) :: ps

/-- JavaScript `String.prototype.split` with a one-character separator. -/
def splitCh (sep : Char) : Str → List Str
  | [] => [[]]
  | c :: rest =>
    if c = sep then [] :: splitCh sep rest
    else
      match splitCh sep rest with
      | [] => [[c]]
      | p :: ps => (c :: p) :: ps

/-- Split a string at the first occurrence of a character: returns the part
before it and, when the character occurs, the part after it. -/
def breakAt (sep : Char) : Str → Str × Option Str
  | [] => ([], none)
  | c :: rest =>
    if c = sep then ([], some rest)
    else (c :: (breakAt sep rest).1, (breakAt sep rest).2)

/-- Effectful map over a list in the `Except` monad, left to right (the
semantics of the awaited loops and `.map` chains in the source). -/
def exceptMapM (f : α → Except Str β) : List α → Except Str (List β)
  | [] => .ok []
  | x :: xs => do
    let y ← f x
    let ys ← exceptMapM f xs
    .ok (y :: ys)

/-- Effectful map over a list in the `Option` monad, left to right. -/
def optionMapM (f : α → Option β) : List α → Option (List β)
  | [] => some []
  | x :: xs => do
    let y ← f x
    let ys ← optionMapM f xs
    some (y :: ys)

/-- `path.parse(p).base`: the component after the last slash. -/
def jsPathBase (s : Str) : Str := (s.reverse.takeWhile (fun c => c ≠ '/')).reverse

/-- `path.parse(p).ext` computed on the base name: the suffix from the last
dot, or empty when there is no dot or the only dot is the leading character. -/
def jsPathExtOfBase (base : Str) : Str :=
  let t := base.reverse.takeWhile (fun c => c ≠ '.')
  if t.length + 1 < base.length then '.' :: t.reverse else []

/-- `path.parse(filename).ext` as used on directory entries. -/
def jsPathExt (s : Str) : Str := jsPathExtOfBase (jsPathBase s)

/-- `path.join(dir, name)` for the simple two-component joins the tool does. -/
def pathJoin (dir name : Str) : Str := dir ++ '/' :: name

/-- The JavaScript WhiteSpace and LineTerminator code points, the set trimmed
by `String.prototype.trim`. -/
def jsWhitespaceChars : Str :=
  ['\t', '\n', '\u000B', '\u000C', '\r', ' ', ' ', ' ',
   ' ', ' ', ' ', ' ', ' ', ' ', ' ',
   ' ', ' ', ' ', ' ', ' ', ' ', ' ',
   ' ', '　', '﻿']

def jsWhitespace (c : Char) : Bool := decide (c ∈ jsWhitespaceChars)

/-- `str.trim()`. -/
def jsTrim (s : Str) : Str :=
  ((s.dropWhile jsWhitespace).reverse.dropWhile jsWhitespace).reverse

/-- Whether the string has two adjacent underscores (an occurrence of the
separator `__`). -/
def hasDD : Str → Bool
  | [] => false
  | [_] => false
  | a :: b :: rest => (a = '_' && b = '_') || hasDD (b :: rest)

/-! ### snake-case (the snake-case npm package, `snakeCase`)

`snakeCase` splits the input into words (maximal alphanumeric runs, further
split at lower/digit→upper and upper→upper-lower camel-case boundaries),
lowercases them (ASCII, as the names the tool handles are ASCII) and joins
them with single underscores. -/

/-- The ASCII uppercase-to-lowercase table. -/
def upperLowerPairs : List (Char × Char) :=
  [('A', 'a'), ('B', 'b'), ('C', 'c'), ('D', 'd'), ('E', 'e'), ('F', 'f'),
   ('G', 'g'), ('H', 'h'), ('I', 'i'), ('J', 'j'), ('K', 'k'), ('L', 'l'),
   ('M', 'm'), ('N', 'n'), ('O', 'o'), ('P', 'p'), ('Q', 'q'), ('R', 'r'),
   ('S', 's'), ('T', 't'), ('U', 'u'), ('V', 'v'), ('W', 'w'), ('X', 'x'),
   ('Y', 'y'), ('Z', 'z')]

/-- ASCII lowercasing of a single character. -/
def jsToLower (c : Char) : Char :=
  ((upperLowerPairs.find? (fun p => p.1 == c)).map Prod.snd).getD c

/-- Word splitter of the snake-case package.  `cur` is the current word,
reversed. -/
def snakeWordsAux : Str → Str → List Str
  | [], cur => if cur.isEmpty then [] else [cur.reverse]
  | c :: rest, cur =>
    if isAlnum c then
      let boundary :=
        match cur with
        | [] => false
        | p :: _ =>
          ((isLowerCh p || isDigitCh p) && isUpperCh c) ||
          (isUpperCh p && isUpperCh c &&
            (match rest with | d :: _ => isLowerCh d | [] => false))
      if boundary then cur.reverse :: snakeWordsAux rest [c]
      else snakeWordsAux rest (c :: cur)
    else if cur.isEmpty then snakeWordsAux rest []
    else cur.reverse :: snakeWordsAux rest []

/-- Rejoining with a one-character separator (also the word join of
snake-case, with separator underscore). -/
def joinStr (sep : Char) : List Str → Str
  | [] => []
  | [p] => p
  | p :: ps => p ++ sep :: joinStr sep ps

/-- `snakeCase` from the snake-case package (ASCII inputs). -/
def snakeCase (s : Str) : Str :=
  joinStr '_' ((snakeWordsAux s []).map (List.map jsToLower))

/-! ### The semver npm package

The tool uses `semver.valid`, `semver.gt` and `semver.inc(v, "major")`.
A version is parsed by the FULL semver regular expression:
`major.minor.patch` numeric identifiers without leading zeros, an optional
dash-prefixed dot-separated prerelease, an optional plus-prefixed
dot-separated build. -/

/-- A prerelease identifier: numeric, or alphanumeric-with-dashes. -/
inductive PreId where
  | num (n : Nat)
  | alpha (s : Str)
deriving DecidableEq

/-- A parsed semantic version.  Build metadata is kept but ignored by
comparison, as in the semver package. -/
structure SV where
  major : Nat
  minor : Nat
  patch : Nat
  pre : List PreId
  build : List Str
deriving DecidableEq

def isAlnumDash (c : Char) : Bool := isAlnum c || c = '-'

def digitVal (c : Char) : Nat := c.toNat - 48

def digitsToNat (s : Str) : Nat := s.foldl (fun n c => n * 10 + digitVal c) 0

/-- A numeric identifier: `0 | [1-9][0-9]*`. -/
def isNumId (s : Str) : Bool :=
  (!s.isEmpty) && s.all isDigitCh && (s.head? ≠ some '0' || s.length = 1)

def parseNumId (s : Str) : Option Nat :=
  if isNumId s then some (digitsToNat s) else none

/-- A prerelease identifier: `0|[1-9][0-9]*` (numeric, no leading zero) or an
alphanumeric-with-dash identifier containing at least one non-digit. -/
def parsePreId (s : Str) : Option PreId :=
  if s.isEmpty || !(s.all isAlnumDash) then none
  else if s.all isDigitCh then
    if isNumId s then some (.num (digitsToNat s)) else none
  else some (.alpha s)

def isBuildId (s : Str) : Bool := (!s.isEmpty) && s.all isAlnumDash

/-- The version core of the FULL semver regular expression as a parser:
`major.minor.patch` numeric identifiers, optional prerelease and build. -/
def parseSemver (s : Str) : Option SV := do
  let pb := breakAt '+' s
  let cp := breakAt '-' pb.1
  match splitCh '.' cp.1 with
  | [ma, mi, pa] =>
    let major ← parseNumId ma
    let minor ← parseNumId mi
    let patch ← parseNumId pa
    let pre ←
      match cp.2 with
      | none => some []
      | some p => optionMapM parsePreId (splitCh '.' p)
    match pb.2 with
    | none => some ⟨major, minor, patch, pre, []⟩
    | some b =>
      if (splitCh '.' b).all isBuildId then some ⟨major, minor, patch, pre, splitCh '.' b⟩
      else none
  | _ => none

/-- The optional single leading `v` allowed by the FULL semver regular
expression (`^v?major.minor.patch...$`). -/
def stripLeadingV (s : Str) : Str :=
  match s with
  | [] => []
  | c :: rest => if c = 'v' then rest else c :: rest

/-- `semver.parse`: the `SemVer` constructor trims the input and matches it
against the FULL regular expression, which allows one leading `v` before the
version core. -/
def semverParse (s : Str) : Option SV := parseSemver (stripLeadingV (jsTrim s))

/-- `semver.valid(v) !== null`: the trimmed input, less an optional leading
`v`, matches the FULL regular expression. -/
def semverValid (s : Str) : Bool := (semverParse s).isSome

/-- JavaScript string comparison (`a < b` on code units), used by the semver
package to compare alphanumeric prerelease identifiers. -/
def strCmp : Str → Str → Ordering
  | [], [] => .eq
  | [], _ :: _ => .lt
  | _ :: _, [] => .gt
  | a :: as, b :: bs =>
    if a.toNat < b.toNat then .lt
    else if b.toNat < a.toNat then .gt
    else strCmp as bs

/-- semver `compareIdentifiers`: numbers compare numerically and are lower
than alphanumeric identifiers. -/
def preIdCmp : PreId → PreId → Ordering
  | .num a, .num b => compare a b
  | .num _, .alpha _ => .lt
  | .alpha _, .num _ => .gt
  | .alpha a, .alpha b => strCmp a b

/-- Elementwise comparison of prerelease lists; a strict prefix is lower. -/
def preListCmp : List PreId → List PreId → Ordering
  | [], [] => .eq
  | [], _ :: _ => .lt
  | _ :: _, [] => .gt
  | a :: as, b :: bs =>
    match preIdCmp a b with
    | .eq => preListCmp as bs
    | o => o

/-- semver `compare`: main triple numerically, then prerelease (a version
without prerelease is higher than one with). -/
def svCompare (x y : SV) : Ordering :=
  (compare x.major y.major).then ((compare x.minor y.minor).then
    ((compare x.patch y.patch).then
      (match x.pre, y.pre with
       | [], [] => .eq
       | [], _ :: _ => .gt
       | _ :: _, [] => .lt
       | a, b => preListCmp a b)))

/-- `semver.gt` on two valid versions. -/
def semverGtB (a b : Str) : Bool :=
  match semverParse a, semverParse b with
  | some x, some y => svCompare x y = .gt
  | _, _ => false

/-- `semver.gt`, raising on an invalid version as the package does. -/
def semverGtE (a b : Str) : Except Str Bool :=
  match semverParse a, semverParse b with
  | some x, some y => .ok (svCompare x y = .gt)
  | _, _ => .error ("Invalid Version".toList)

/-- `semver.inc(v, "major")` on the parsed version: pre-major prerelease
versions only close out the current major. -/
def svIncMajor (x : SV) : SV :=
  if x.minor ≠ 0 ∨ x.patch ≠ 0 ∨ x.pre = [] then ⟨x.major + 1, 0, 0, [], []⟩
  else ⟨x.major, 0, 0, [], []⟩

def digitChar : Nat → Char
  | 0 => '0' | 1 => '1' | 2 => '2' | 3 => '3' | 4 => '4'
  | 5 => '5' | 6 => '6' | 7 => '7' | 8 => '8' | 9 => '9'
  | _ => '*'

/-- Decimal rendering, fuel-based so that it evaluates in the kernel. -/
def natDigitsGo : Nat → Nat → Str → Str
  | 0, _, acc => acc
  | fuel + 1, n, acc =>
    if n = 0 then acc else natDigitsGo fuel (n / 10) (digitChar (n % 10) :: acc)

def natStr (n : Nat) : Str := if n = 0 then ['0'] else natDigitsGo (n + 1) n []

/-- The `version` string of a parsed semver (build metadata excluded, as in
the package's `format`). -/
def renderSV (x : SV) : Str :=
  natStr x.major ++ '.' :: natStr x.minor ++ '.' :: natStr x.patch ++
    (match x.pre with
     | [] => []
     | ps => '-' :: joinCh '.' (ps.map renderPreId))
where
  renderPreId : PreId → Str
    | .num n => natStr n
    | .alpha s => s
  joinCh (c : Char) : List Str → Str
    | [] => []
    | [p] => p
    | p :: ps => p ++ c :: joinCh c ps

/-- `semver.inc(v, "major")` on version strings, raising on invalid input. -/
def semverIncMajor (v : Str) : Except Str Str :=
  match semverParse v with
  | some x => .ok (renderSV (svIncMajor x))
  | none => .error ("Invalid Version".toList)

/-! ### The migration filename codec (SQLMirrorMigrator.js lines 43-59 and
115-164) -/

structure MigrationTypeEntry where
  type : Str
  suffix : Str
  ext : Str
deriving DecidableEq

/-- `MIGRATION_TYPE_SUFFIX` (lines 43-59). -/
def MIGRATION_TYPE_SUFFIX : List MigrationTypeEntry :=
  [⟨"up".toList, "U".toList, ".sql".toList⟩,
   ⟨"down".toList, "D".toList, ".sql".toList⟩,
   ⟨"config".toList, [], ".js".toList⟩]

/-- `#migrationFilenameSerialize` (lines 115-133): `Invalid migration type`
when the type tag is unknown, `Invalid version` when semver rejects the
version, otherwise `<version><suffix>__<snakeCase name><ext>`. -/
def migrationFilenameSerialize (ty version migrationName : Str) : Except Str Str :=
  match MIGRATION_TYPE_SUFFIX.find? (fun e => e.type == ty) with
  | none => .error ("Invalid migration type".toList)
  | some entry =>
    if semverValid version then
      .ok (version ++ entry.suffix ++ "__".toList ++ snakeCase migrationName ++ entry.ext)
    else .error ("Invalid version".toList)

structure ParsedMigration where
  type : Str
  version : Str
  migrationName : Str
  ext : Str
  filename : Str
deriving DecidableEq

/-- `#migrationFilenameParse` (lines 135-164).  The base name is split on
`__`; the version segment's last character selects the migration type; the
name is the second segment up to its first dot.  A missing `__` separator
makes the JavaScript `migrationNameWithExt.split` crash on `undefined`,
modelled as a TypeError result. -/
def migrationFilenameParse (filepath : Str) : Except Str ParsedMigration :=
  let filename := jsPathBase filepath
  let parts := splitUU filename
  let fullVersion := parts.headD []
  let (version, suffixType) := splitAtIndex fullVersion (fullVersion.length - 1)
  match MIGRATION_TYPE_SUFFIX.find? (fun e => e.suffix == suffixType) with
  | none => .error ("Invalid migration type suffix".toList)
  | some entry =>
    if semverValid version then
      match parts[1]? with
      | none => .error ("TypeError".toList)
      | some migrationNameWithExt =>
        .ok ⟨entry.type, version, (splitCh '.' migrationNameWithExt).headD [],
             jsPathExtOfBase filename, filename⟩
    else .error ("Invalid version".toList)

/-! ### The schema assembler (generateSqlFileContent.js)

`src/lib/sql.js` (the chunk library) is not part of the provided sources;
its `sql.table` and `sql.column.ref` chunks are modelled from the spec
(section 4.1).  Plugins carry their contributed extension pairs, resolved
column strings and trigger generators. -/

structure UpDown where
  up : Str
  down : Str
deriving DecidableEq

structure SqlExtension where
  name : Str
  up : Str
  down : Str
deriving DecidableEq

structure Reference where
  columnName : Str
  tableNameRef : Str
  nullable : Bool
deriving DecidableEq

structure Plugin where
  extensions : List SqlExtension
  columns : List Str
  triggers : List (Str → List Str → UpDown)

structure TableOptions where
  disableId : Bool
deriving DecidableEq

structure Table where
  name : Str
  columns : List Str
  references : List Reference
  types : List UpDown
  plugins : List Plugin
  options : TableOptions

structure SqlFileConfig where
  extensions : List SqlExtension
  functions : List UpDown
  tables : List Table

/-- Modelled from the spec: `sql.column.ref(columnName, tableNameRef,
{nullable})` of the missing chunk library renders a `uuid` column with a
`REFERENCES <table>(<table>_id)` constraint, `NOT NULL` unless nullable
(spec section 4.1). -/
def sqlColumnRef (columnName tableNameRef : Str) (nullable : Bool) : Str :=
  columnName ++ " uuid REFERENCES ".toList ++ tableNameRef ++ "(".toList ++
    tableNameRef ++ "_id)".toList ++ (if nullable then [] else " NOT NULL".toList)

/-- Modelled from the spec: `sql.table(name, columns, options)` of the missing
chunk library emits `CREATE TABLE IF NOT EXISTS` with a UUID-default primary
key column unless `disableId`, and `DROP TABLE IF EXISTS` as the reverse
(spec section 4.1). -/
def sqlTable (name : Str) (cols : List Str) (opts : TableOptions) : UpDown :=
  let cols :=
    if opts.disableId then cols
    else (name ++ "_id uuid PRIMARY KEY DEFAULT uuid_generate_v4()".toList) :: cols
  { up := "CREATE TABLE IF NOT EXISTS ".toList ++ name ++ " (\n".toList ++
      joinCommaNl cols ++ "\n);".toList
    down := "DROP TABLE IF EXISTS ".toList ++ name ++ ";".toList }
where
  joinCommaNl : List Str → Str
    | [] => []
    | [c] => c
    | c :: cs => c ++ ",\n".toList ++ joinCommaNl cs

/-- Plugin-extension aggregation of `generateSqlFileContent` (lines 7-19):
table-plugin extensions are appended to the configured ones, first
occurrence of a name wins. -/
def allExtensions (extensions : List SqlExtension) (tables : List Table) : List SqlExtension :=
  tables.foldl
    (fun acc t =>
      t.plugins.foldl
        (fun acc p =>
          p.extensions.foldl
            (fun acc e => if acc.any (fun x => x.name == e.name) then acc else acc ++ [e])
            acc)
        acc)
    extensions

/-- `getTableColumns` (lines 23-47): reference columns first, then the
table's own columns, then plugin columns. -/
def getTableColumns (t : Table) : List Str :=
  (t.references.map (fun r => sqlColumnRef r.columnName r.tableNameRef r.nullable)) ++
    t.columns ++ t.plugins.foldl (fun acc p => acc ++ p.columns) []

/-! #### The topological-sort npm package

`new TopologicalSort(map)` with `addEdge(tableName, referencedName)` and
`sort()`: depth-first exploration of every node in insertion order, with the
current path for cycle detection; finished nodes are pushed on a stack whose
reverse is the sorted key order.  The package's visited set always equals the
set of stacked keys, so a single stack models both.  Recursion is by fuel
through `Nat.rec` so that the kernel can evaluate it; the fuel
`#nodes + 1` is shown sufficient below. -/

def sortFuelMsg : Str := "fuel exhausted".toList

def sortCycleMsg : Str := "Cyclic dependency".toList

def sortUnknownMsg : Str := "Unknown node".toList

/-- Iterating a node's children left to right. -/
def exploreChildren (rec : List Str → Str → List Str → Except Str (List Str))
    (path : List Str) : List Str → List Str → Except Str (List Str)
  | [], stack => .ok stack
  | c :: cs, stack => do
    let stack2 ← rec path c stack
    exploreChildren rec path cs stack2

/-- One step of the package's `exploreNode`: cycle check on the current path,
visited check on the stack, then children, then push. -/
def exploreStep (adj : Str → List Str)
    (rec : List Str → Str → List Str → Except Str (List Str))
    (path : List Str) (key : Str) (stack : List Str) : Except Str (List Str) :=
  if key ∈ path then .error sortCycleMsg
  else if key ∈ stack then .ok stack
  else do
    let stack2 ← exploreChildren rec (path ++ [key]) (adj key) stack
    .ok (stack2 ++ [key])

def explore (adj : Str → List Str) (fuel : Nat) :
    List Str → Str → List Str → Except Str (List Str) :=
  Nat.rec (motive := fun _ => List Str → Str → List Str → Except Str (List Str))
    (fun _ _ _ => .error sortFuelMsg)
    (fun _ ih => exploreStep adj ih)
    fuel

theorem explore_zero (adj : Str → List Str) (path : List Str) (key : Str)
    (stack : List Str) : explore adj 0 path key stack = .error sortFuelMsg := rfl

theorem explore_succ (adj : Str → List Str) (fuel : Nat) :
    explore adj (fuel + 1) = exploreStep adj (explore adj fuel) := rfl

/-- The `sort()` driver loop over all node keys in insertion order. -/
def sortLoop (adj : Str → List Str) (fuel : Nat) :
    List Str → List Str → Except Str (List Str)
  | [], stack => .ok stack
  | k :: ks, stack => do
    let stack2 ← explore adj fuel [] k stack
    sortLoop adj fuel ks stack2

def tableNames (tables : List Table) : List Str := tables.map (fun t => t.name)

/-- The dependency edges: children of a table key are its referenced table
names, in declaration order. -/
def tablesAdj (tables : List Table) (u : Str) : List Str :=
  match tables.find? (fun t => t.name == u) with
  | some t => t.references.map (fun r => r.tableNameRef)
  | none => []

/-- `sortTablesByReferences` (lines 146-161): `addEdge` rejects a reference to
an unknown table; `sort()` rejects cycles; the sorted keys (referencing
tables before referenced ones) are mapped back to their tables. -/
def sortTablesByReferences (tables : List Table) : Except Str (List Table) :=
  let names := tableNames tables
  if tables.all (fun t => t.references.all (fun r => names.contains r.tableNameRef)) then do
    let stack ← sortLoop (tablesAdj tables) (names.length + 1) names []
    .ok (stack.reverse.filterMap (fun k => tables.find? (fun t => t.name == k)))
  else .error sortUnknownMsg

/-- The iteration order of the up-document table loop (line 67:
`[...sortedTables].reverse()`), i.e. the order in which tables are rendered
into the generated up SQL. -/
def upDocTables (sortedTables : List Table) : List Table := sortedTables.reverse

/-- The iteration order of the down-document table loop (line 98). -/
def downDocTables (sortedTables : List Table) : List Table := sortedTables

/-- `generateSqlUpFileContent` (lines 49-93): extensions, functions, then per
table its types, CREATE statement and plugin triggers. -/
def generateSqlUpFileContent (allExts : List SqlExtension) (extensions : List SqlExtension)
    (functions : List UpDown) (ts : List Table) : Str :=
  (allExts.foldl (fun acc e => acc ++ e.up ++ ['\n']) []) ++
    (if extensions.length > 0 then ['\n'] else []) ++
    (functions.foldl (fun acc f => acc ++ f.up ++ ['\n']) []) ++
    (if functions.length > 0 then ['\n'] else []) ++
    ts.foldl
      (fun acc t =>
        let cols := getTableColumns t
        let tbl := sqlTable t.name cols t.options
        acc ++ (t.types.foldl (fun a ty => a ++ ty.up ++ ['\n']) []) ++
          tbl.up ++ ['\n'] ++
          (t.plugins.foldl
            (fun a p => a ++ p.triggers.foldl (fun a tr => a ++ (tr t.name cols).up ++ ['\n']) [])
            []) ++
          "\n\n".toList)
      []

/-- `generateSqlDownFileContent` (lines 95-132): per table its plugin
triggers, DROP statement and types, then functions, then extensions. -/
def generateSqlDownFileContent (allExts : List SqlExtension) (functions : List UpDown)
    (ts : List Table) : Str :=
  (ts.foldl
      (fun acc t =>
        let cols := getTableColumns t
        let tbl := sqlTable t.name [] t.options
        acc ++
          (t.plugins.foldl
            (fun a p => a ++ p.triggers.foldl (fun a tr => a ++ (tr t.name cols).down ++ ['\n']) [])
            []) ++
          tbl.down ++ ['\n'] ++
          (t.types.foldl (fun a ty => a ++ ty.down ++ ['\n']) []) ++ ['\n'])
      []) ++
    (functions.foldl (fun acc f => acc ++ f.down ++ ['\n']) []) ++ ['\n'] ++
    (allExts.foldl (fun acc e => acc ++ e.down ++ ['\n']) []) ++ ['\n']

def wrapTransaction (content : Str) : Str :=
  "BEGIN TRANSACTION;\n\n".toList ++ content ++ "\n\nCOMMIT TRANSACTION;".toList

/-- The generation-timestamp comment (line 134); the ISO timestamp is the
`now` parameter. -/
def generatorComment (now : Str) : Str :=
  "-- This file was generated via sql-mirror at ".toList ++ now ++ ['\n']

/-- `generateSqlFileContent` (lines 4-144): sort the tables by references,
then render the up document over `upDocTables` and the down document over
`downDocTables`. -/
def generateSqlFileContent (now : Str) (cfg : SqlFileConfig) : Except Str UpDown := do
  let sortedTables ← sortTablesByReferences cfg.tables
  let allExts := allExtensions cfg.extensions cfg.tables
  .ok
    { up := generatorComment now ++
        wrapTransaction
          (generateSqlUpFileContent allExts cfg.extensions cfg.functions
            (upDocTables sortedTables))
      down := generatorComment now ++
        wrapTransaction
          (generateSqlDownFileContent allExts cfg.functions (downDocTables sortedTables)) }

/-! ### The migration lifecycle controller (SQLMirrorMigrator.js)

The database is modelled as the ledger table: a created-flag and the rows in
insertion (serial id) order, so the row of largest id is the list's last
element.  The filesystem is the directory listing plus a contents map;
external collaborators (the config-module loader and the md5 digest) are
parameters.  `up`/`down` return the final ledger together with the list of
executed migration file paths, in execution order; a thrown JavaScript error
is an `Except.error` and, as in the source, occurs before the corresponding
database mutation. -/

structure LedgerRow where
  version : Str
  name : Str
  filename : Str
  checksum : Str
deriving DecidableEq

structure Db where
  tableCreated : Bool
  rows : List LedgerRow
deriving DecidableEq

inductive TableState where
  | table_not_created
  | no_migrations_applied
  | migration_applied (row : LedgerRow)
deriving DecidableEq

/-- `#getMigrationTableStateFromDb` (lines 166-210): probe table existence,
then the row of largest id. -/
def getMigrationTableStateFromDb (db : Db) : TableState :=
  if !db.tableCreated then .table_not_created
  else
    match db.rows.getLast? with
    | none => .no_migrations_applied
    | some r => .migration_applied r

/-- A scanned migration file: the parse of its name plus its joined path
(`#getMigrationsFromFs`, lines 217-222). -/
structure FsMigration extends ParsedMigration where
  filepath : Str
deriving DecidableEq

/-- `#getMigrationsFromFs` (lines 212-223): keep the listing entries whose
extension is `.sql` and parse each of them. -/
def getMigrationsFromFs (dir : Str) (listing : List Str) : Except Str (List FsMigration) :=
  exceptMapM (fun f => (migrationFilenameParse f).map (fun p => ⟨p, pathJoin dir f⟩))
    (listing.filter (fun f => jsPathExt f == ".sql".toList))

/-- `#getNextMigrationVersionFromFs` (lines 225-232): major-increment of the
version of the last scanned file, or of `0.0.0` when there is none. -/
def getNextMigrationVersionFromFs (dir : Str) (listing : List Str) : Except Str Str := do
  let migs ← getMigrationsFromFs dir listing
  let lastVersion := ((migs.getLast?).map (fun m => m.version)).getD ("0.0.0".toList)
  semverIncMajor lastVersion

/-- `createNextMigrationFiles` (lines 234-274): compute the next version and
write the up, down and config scaffolds; the result is the version and the
three file names written. -/
def createNextMigrationFiles (dir : Str) (listing : List Str) (migrationName : Str) :
    Except Str (Str × Str × Str × Str) := do
  let version ← getNextMigrationVersionFromFs dir listing
  let upFilename ← migrationFilenameSerialize ("up".toList) version migrationName
  let downFilename ← migrationFilenameSerialize ("down".toList) version migrationName
  let configFilename ← migrationFilenameSerialize ("config".toList) version migrationName
  .ok (version, upFilename, downFilename, configFilename)

/-- `#getAppliedMigrationsFromDb` (lines 276-290): every ledger row in
descending id order, parsed from its stored filename. -/
def getAppliedMigrationsFromDb (db : Db) : Except Str (List ParsedMigration) :=
  exceptMapM (fun r => migrationFilenameParse r.filename) db.rows.reverse

/-- `#getMigrationConfigPath` (lines 292-302). -/
def getMigrationConfigPath (cwd dir version migrationName : Str) : Except Str Str := do
  let configFilename ← migrationFilenameSerialize ("config".toList) version migrationName
  .ok (pathJoin cwd (pathJoin dir configFilename))

/-- The ledger-table DDL config of `#createMigrationTable` (lines 87-100).
The `created_at` table plugin of the missing chunk library is modelled from
the spec as a timestamp column contribution. -/
def migrationTableConfig : SqlFileConfig :=
  { extensions := []
    functions := []
    tables :=
      [{ name := "sqlmirror_migration".toList
         columns :=
           ["sqlmirror_migration_id SERIAL PRIMARY KEY".toList,
            "version VARCHAR(255) UNIQUE NOT NULL".toList,
            "name VARCHAR(255) UNIQUE NOT NULL".toList,
            "filename VARCHAR(255) UNIQUE NOT NULL".toList,
            "checksum TEXT NOT NULL".toList]
         references := []
         types := []
         plugins := [{ extensions := []
                       columns := ["created_at TIMESTAMP NOT NULL DEFAULT NOW()".toList]
                       triggers := [] }]
         options := ⟨true⟩ }] }

/-- `#createMigrationTable` (lines 79-109): refuse when the state is not
`table_not_created`, render the ledger DDL through the assembler and execute
it, which makes the table exist. -/
def createMigrationTable (now : Str) (db : Db) : Except Str Db :=
  if getMigrationTableStateFromDb db ≠ .table_not_created then
    .error ("Migration table already exists".toList)
  else do
    let _ ← generateSqlFileContent now migrationTableConfig
    .ok { db with tableCreated := true }

/-- `Array.prototype.filter` with a predicate that may throw, evaluated left
to right (the `semver.gt` filter of `up`, lines 329-335). -/
def exceptFilter (p : α → Except Str Bool) : List α → Except Str (List α)
  | [] => .ok []
  | x :: xs => do
    let b ← p x
    let r ← exceptFilter p xs
    .ok (if b then x :: r else r)

/-- Pointwise update of the contents map (an `fs.writeFile`). -/
def writeFs (contents : Str → Str) (p v : Str) : Str → Str :=
  fun q => if q = p then v else contents q

/-- The body of the `up` loop (lines 337-354) together with
`#executeUpMigration` (lines 419-441): optionally regenerate the up file
from its sibling config module, then execute the file and insert its ledger
row (version and name from re-parsing the path, filename from its base,
md5 checksum of the executed content) in one transaction. -/
def runUpMigrations (cwd dir now : Str) (loadConfig : Str → Option SqlFileConfig)
    (md5 : Str → Str) : List FsMigration → Db → (Str → Str) → List Str →
    Except Str (Db × (Str → Str) × List Str)
  | [], db, contents, log => .ok (db, contents, log)
  | m :: rest, db, contents, log => do
    let configPath ← getMigrationConfigPath cwd dir m.version m.migrationName
    let contents ←
      match loadConfig configPath with
      | none => .ok contents
      | some cfg => do
        let docs ← generateSqlFileContent now cfg
        .ok (writeFs contents m.filepath docs.up)
    let fileContent := contents m.filepath
    let parsed ← migrationFilenameParse m.filepath
    let row : LedgerRow :=
      ⟨parsed.version, parsed.migrationName, jsPathBase m.filepath, md5 fileContent⟩
    runUpMigrations cwd dir now loadConfig md5 rest
      { db with rows := db.rows ++ [row] } contents (log ++ [m.filepath])

/-- The table-creation step of `up()` (lines 306-309): create the ledger
table when the probed state says it does not exist. -/
def ensureTable (now : Str) (db : Db) : Except Str Db :=
  if getMigrationTableStateFromDb db = .table_not_created then createMigrationTable now db
  else .ok db

/-- `up()` (lines 304-355): create the ledger table if needed, scan the
directory, diff against the applied migrations and apply each remaining up
file in scan order. -/
def up (cwd dir now : Str) (loadConfig : Str → Option SqlFileConfig) (md5 : Str → Str)
    (db : Db) (listing : List Str) (contents : Str → Str) :
    Except Str (Db × List Str) := do
  let st := getMigrationTableStateFromDb db
  let db ← ensureTable now db
  let lastApplied : Option LedgerRow :=
    match st with
    | .migration_applied r => some r
    | _ => none
  let migrationsFromFs ← getMigrationsFromFs dir listing
  let migrationsUpFromFs := migrationsFromFs.filter (fun m => m.type == "up".toList)
  let appliedMigrations ← getAppliedMigrationsFromDb db
  let notApplied := migrationsUpFromFs.filter
    (fun m => !(appliedMigrations.any (fun a => a.version == m.version)))
  let migrationUpFilesToApply ← exceptFilter
    (fun m =>
      match lastApplied with
      | none => .ok true
      | some l => semverGtE m.version l.version)
    notApplied
  let (db, _, log) ← runUpMigrations cwd dir now loadConfig md5
    migrationUpFilesToApply db contents []
  .ok (db, log)

/-- `down()` (lines 357-400) with `#executeDownMigration` (lines 402-417):
fatal errors on a missing ledger table or an empty ledger; otherwise build
the down filename from the last row, optionally regenerate it from its
sibling config module, execute it and delete the ledger rows of its parsed
version in one transaction. -/
def down (cwd dir now : Str) (loadConfig : Str → Option SqlFileConfig)
    (db : Db) (contents : Str → Str) : Except Str (Db × List Str) :=
  match getMigrationTableStateFromDb db with
  | .table_not_created => .error ("Migration table not created".toList)
  | .no_migrations_applied => .error ("No migrations applied".toList)
  | .migration_applied lastAppliedMigration => do
    let downFilename ← migrationFilenameSerialize ("down".toList)
      lastAppliedMigration.version lastAppliedMigration.name
    let migrationDownFilePath := pathJoin dir downFilename
    let configPath ← getMigrationConfigPath cwd dir
      lastAppliedMigration.version lastAppliedMigration.name
    let _ ←
      match loadConfig configPath with
      | none => (.ok contents : Except Str (Str → Str))
      | some cfg => do
        let docs ← generateSqlFileContent now cfg
        .ok (writeFs contents migrationDownFilePath docs.down)
    let parsed ← migrationFilenameParse (jsPathBase migrationDownFilePath)
    .ok ({ db with rows := db.rows.filter (fun r => !(r.version == parsed.version)) },
         [migrationDownFilePath])

/-! ### Generic monadic-list lemmas -/

@[simp] theorem exceptBind_ok {α β : Type} (a : α) (f : α → Except Str β) :
    (Except.ok a >>= f : Except Str β) = f a := rfl

@[simp] theorem exceptBind_error {α β : Type} (e : Str) (f : α → Except Str β) :
    (Except.error e >>= f : Except Str β) = .error e := rfl

@[simp] theorem exceptMap_ok {α β : Type} (a : α) (f : α → β) :
    (Except.ok a : Except Str α).map f = .ok (f a) := rfl

@[simp] theorem exceptMap_error {α β : Type} (e : Str) (f : α → β) :
    (Except.error e : Except Str α).map f = .error e := rfl

@[simp] theorem optionBind_some {α β : Type} (a : α) (f : α → Option β) :
    (some a >>= f : Option β) = f a := rfl

@[simp] theorem optionBind_none {α β : Type} (f : α → Option β) :
    (none >>= f : Option β) = none := rfl

theorem exceptFilter_eq_filter (p : α → Except Str Bool) (q : α → Bool) (l : List α)
    (h : ∀ x ∈ l, p x = .ok (q x)) : exceptFilter p l = .ok (l.filter q) := by
  induction l with
  | nil => rfl
  | cons x xs ih =>
    have hx := h x (List.mem_cons_self x xs)
    have ihx := ih (fun y hy => h y (List.mem_cons_of_mem x hy))
    simp only [exceptFilter, hx, ihx, exceptBind_ok, List.filter_cons]

theorem exceptMapM_ok_mem {α β : Type} (f : α → Except Str β) (l : List α) (res : List β)
    (h : exceptMapM f l = .ok res) : ∀ y ∈ res, ∃ x ∈ l, f x = .ok y := by
  induction l generalizing res with
  | nil =>
    simp only [exceptMapM] at h
    cases h
    intro y hy
    simp at hy
  | cons x xs ih =>
    simp only [exceptMapM] at h
    cases hfx : f x with
    | error e => rw [hfx] at h; simp at h
    | ok b =>
      rw [hfx] at h
      cases hrest : exceptMapM f xs with
      | error e => rw [hrest] at h; simp at h
      | ok bs =>
        rw [hrest] at h
        simp only [exceptBind_ok] at h
        cases h
        intro y hy
        rcases List.mem_cons.mp hy with hy | hy
        · exact ⟨x, List.mem_cons_self x xs, by rw [hfx, hy]⟩
        · rcases ih bs hrest y hy with ⟨x', hx', hfx'⟩
          exact ⟨x', List.mem_cons_of_mem x hx', hfx'⟩

theorem exceptMapM_congr {α β : Type} (f : α → Except Str β) (g : α → Except Str β)
    (l : List α) (h : ∀ x ∈ l, f x = g x) : exceptMapM f l = exceptMapM g l := by
  induction l with
  | nil => rfl
  | cons x xs ih =>
    simp only [exceptMapM, h x (List.mem_cons_self x xs),
      ih (fun y hy => h y (List.mem_cons_of_mem x hy))]

theorem exceptMapM_eq_ok_map {α β : Type} (f : α → Except Str β) (g : α → β) (l : List α)
    (h : ∀ x ∈ l, f x = .ok (g x)) : exceptMapM f l = .ok (l.map g) := by
  induction l with
  | nil => rfl
  | cons x xs ih =>
    simp only [exceptMapM, h x (List.mem_cons_self x xs),
      ih (fun y hy => h y (List.mem_cons_of_mem x hy)), exceptBind_ok, List.map_cons]

theorem optionMapM_some_mem {α β : Type} (f : α → Option β) (l : List α) (res : List β)
    (h : optionMapM f l = some res) : ∀ x ∈ l, ∃ y, f x = some y := by
  induction l generalizing res with
  | nil => intro x hx; simp at hx
  | cons x xs ih =>
    simp only [optionMapM] at h
    cases hfx : f x with
    | none => rw [hfx] at h; simp at h
    | some b =>
      rw [hfx] at h
      simp only [optionBind_some] at h
      cases hrest : optionMapM f xs with
      | none => rw [hrest] at h; simp at h
      | some bs =>
        intro z hz
        rcases List.mem_cons.mp hz with hz | hz
        · exact ⟨b, by rw [hz]; exact hfx⟩
        · exact ih bs hrest z hz

/-! ### Lemmas about the string splitters -/

theorem splitUU_sep (rest : Str) : splitUU ('_' :: '_' :: rest) = [] :: splitUU rest := by
  simp [splitUU]

theorem splitUU_cons₂ {c d : Char} (rest : Str) (h : ¬ (c = '_' ∧ d = '_')) :
    splitUU (c :: d :: rest) =
      match splitUU (d :: rest) with
      | [] => [[c]]
      | p :: ps => (c :: p) :: ps := by
  simp [splitUU, h]

theorem splitUU_ne_nil (s : Str) : splitUU s ≠ [] := by
  match s with
  | [] => simp [splitUU]
  | [c] => simp [splitUU]
  | c :: d :: rest =>
    by_cases h : c = '_' ∧ d = '_'
    · rcases h with ⟨hc, hd⟩; subst hc; subst hd; rw [splitUU_sep]; simp
    · rw [splitUU_cons₂ rest h]
      cases splitUU (d :: rest) <;> simp

theorem hasDD_cons_false {a : Char} {s : Str} (h : hasDD (a :: s) = false) :
    hasDD s = false := by
  match s with
  | [] => rfl
  | b :: rest =>
    simp [hasDD] at h
    exact h.2

theorem hasDD_cons_ne {a b : Char} {s : Str} (h : hasDD (a :: b :: s) = false) :
    ¬ (a = '_' ∧ b = '_') := by
  intro hab
  simp [hasDD, hab.1, hab.2] at h

/-- A string with no adjacent underscores is not split by `__`. -/
theorem splitUU_no_sep {s : Str} (h : hasDD s = false) : splitUU s = [s] := by
  match s with
  | [] => rfl
  | [c] => rfl
  | c :: d :: rest =>
    rw [splitUU_cons₂ rest (hasDD_cons_ne h), splitUU_no_sep (hasDD_cons_false h)]

/-- The `__` split of `a ++ "__" ++ b` where `a` has no underscore and `b` no
double underscore. -/
theorem splitUU_append {a b : Str} (ha : '_' ∉ a) (hb : hasDD b = false) :
    splitUU (a ++ '_' :: '_' :: b) = [a, b] := by
  induction a with
  | nil => rw [List.nil_append, splitUU_sep, splitUU_no_sep hb]
  | cons x a ih =>
    have hx : x ≠ '_' := fun hx => ha (hx ▸ List.mem_cons_self x a)
    have ha' : '_' ∉ a := fun hm => ha (List.mem_cons_of_mem x hm)
    match a with
    | [] =>
      rw [List.cons_append, List.nil_append,
        splitUU_cons₂ ('_' :: b) (fun hp => hx hp.1), splitUU_sep, splitUU_no_sep hb]
    | y :: a' =>
      have hstep : (x :: (y :: a') ++ '_' :: '_' :: b : Str) =
          x :: y :: (a' ++ '_' :: '_' :: b) := by simp
      rw [hstep, splitUU_cons₂ (a' ++ '_' :: '_' :: b) (fun hp => hx hp.1)]
      have ih' := ih ha'
      rw [List.cons_append] at ih'
      rw [ih']

theorem splitCh_ne_nil (sep : Char) (s : Str) : splitCh sep s ≠ [] := by
  match s with
  | [] => simp [splitCh]
  | c :: rest =>
    simp only [splitCh]
    split
    · simp
    · cases splitCh sep rest <;> simp

theorem splitCh_no_sep {sep : Char} {s : Str} (h : sep ∉ s) : splitCh sep s = [s] := by
  induction s with
  | nil => rfl
  | cons c rest ih =>
    have hc : ¬ c = sep := fun hc => h (hc ▸ List.mem_cons_self c rest)
    have hr := ih (fun hm => h (List.mem_cons_of_mem c hm))
    simp [splitCh, hc, hr]

theorem splitCh_append {sep : Char} {a b : Str} (ha : sep ∉ a) :
    splitCh sep (a ++ sep :: b) = a :: splitCh sep b := by
  induction a with
  | nil => simp [splitCh]
  | cons x a ih =>
    have hx : ¬ x = sep := fun hx => ha (hx ▸ List.mem_cons_self x a)
    have ha' := ih (fun hm => ha (List.mem_cons_of_mem x hm))
    rw [List.cons_append]
    simp only [splitCh, hx, if_false, ha']

theorem splitCh_join (sep : Char) (s : Str) : joinStr sep (splitCh sep s) = s := by
  induction s with
  | nil => rfl
  | cons c rest ih =>
    simp only [splitCh]
    by_cases hc : c = sep
    · subst hc
      simp only [if_pos rfl]
      have hne := splitCh_ne_nil c rest
      match hsp : splitCh c rest with
      | [] => exact absurd hsp hne
      | p :: ps =>
        rw [hsp] at ih
        simp [joinStr, ih]
    · simp only [if_neg hc]
      have hne := splitCh_ne_nil sep rest
      match hsp : splitCh sep rest with
      | [] => exact absurd hsp hne
      | p :: ps =>
        rw [hsp] at ih
        match ps with
        | [] => simp_all [joinStr]
        | q :: qs => simp_all [joinStr]

theorem mem_joinStr {c : Char} {sep : Char} {ps : List Str} (h : c ∈ joinStr sep ps) :
    c = sep ∨ ∃ p ∈ ps, c ∈ p := by
  induction ps with
  | nil => simp [joinStr] at h
  | cons p ps ih =>
    match ps with
    | [] =>
      right
      exact ⟨p, List.mem_cons_self p [], by simpa [joinStr] using h⟩
    | q :: qs =>
      simp only [joinStr, List.mem_append, List.mem_cons] at h
      rcases h with h | h | h
      · exact Or.inr ⟨p, List.mem_cons_self p _, h⟩
      · exact Or.inl h
      · rcases ih (by simpa [joinStr] using h) with h | ⟨r, hr, hcr⟩
        · exact Or.inl h
        · exact Or.inr ⟨r, List.mem_cons_of_mem p hr, hcr⟩

/-- Character membership distributes over a one-character split. -/
theorem mem_splitCh (sep : Char) {c : Char} {s : Str} (h : c ∈ s) :
    c = sep ∨ ∃ p ∈ splitCh sep s, c ∈ p := by
  have := splitCh_join sep s
  rw [← this] at h
  exact mem_joinStr h

theorem breakAt_none {sep : Char} {s : Str} {a : Str} (h : breakAt sep s = (a, none)) :
    s = a := by
  induction s generalizing a with
  | nil =>
    injection h with h1 h2
  | cons c rest ih =>
    simp only [breakAt] at h
    by_cases hc : c = sep
    · rw [if_pos hc] at h
      injection h with h1 h2
      cases h2
    · rw [if_neg hc] at h
      injection h with h1 h2
      rcases hbr : breakAt sep rest with ⟨a', r'⟩
      rw [hbr] at h1 h2
      simp only at h1 h2
      subst h2
      rw [← h1, ih hbr]

theorem breakAt_some {sep : Char} {s a r : Str} (h : breakAt sep s = (a, some r)) :
    s = a ++ sep :: r ∧ sep ∉ a := by
  induction s generalizing a r with
  | nil => injection h with h1 h2; cases h2
  | cons c rest ih =>
    simp only [breakAt] at h
    by_cases hc : c = sep
    · rw [if_pos hc] at h
      injection h with h1 h2
      subst hc
      injection h2 with h2
      rw [← h1, ← h2]
      exact ⟨rfl, by simp⟩
    · rw [if_neg hc] at h
      injection h with h1 h2
      rcases hbr : breakAt sep rest with ⟨a', r'⟩
      rw [hbr] at h1 h2
      simp only at h1 h2
      cases r' with
      | none => cases h2
      | some x =>
        injection h2 with h2
        subst h2
        rcases ih hbr with ⟨h3, h4⟩
        subst h1
        constructor
        · rw [List.cons_append, h3]
        · intro hm
          rcases List.mem_cons.mp hm with hm | hm
          · exact hc hm.symm
          · exact h4 hm

theorem breakAt_no_sep {sep : Char} {s : Str} (h : sep ∉ s) : breakAt sep s = (s, none) := by
  induction s with
  | nil => rfl
  | cons c rest ih =>
    have hc : ¬ c = sep := fun hc => h (hc ▸ List.mem_cons_self c rest)
    have hr := ih (fun hm => h (List.mem_cons_of_mem c hm))
    simp [breakAt, hc, hr]

/-! ### Lemmas about path helpers -/

theorem jsPathBase_no_slash {s : Str} (h : '/' ∉ s) : jsPathBase s = s := by
  unfold jsPathBase
  rw [List.takeWhile_eq_self_iff.mpr, List.reverse_reverse]
  intro c hc
  simp only [ne_eq, decide_eq_true_eq]
  intro hcs
  subst hcs
  exact h (List.mem_reverse.mp hc)

theorem jsPathBase_join {dir f : Str} (h : '/' ∉ f) :
    jsPathBase (pathJoin dir f) = f := by
  unfold jsPathBase pathJoin
  rw [List.reverse_append, List.reverse_cons, List.append_assoc]
  rw [List.takeWhile_append_of_pos (by
    intro x hx
    simp only [ne_eq, decide_eq_true_eq]
    intro hxs
    subst hxs
    exact h (List.mem_reverse.mp hx))]
  simp

theorem jsPathBase_no_slash_out (s : Str) : '/' ∉ jsPathBase s := by
  unfold jsPathBase
  intro h
  have := List.mem_reverse.mp h
  have := List.mem_takeWhile_imp this
  simp at this

/-! ### Lemmas about `hasDD` and `snakeCase` -/

theorem hasDD_cons₂ (a b : Char) (s : Str) :
    hasDD (a :: b :: s) = ((a = '_' && b = '_') || hasDD (b :: s)) := rfl

theorem hasDD_of_no_us {s : Str} (h : '_' ∉ s) : hasDD s = false := by
  match s with
  | [] => rfl
  | [c] => rfl
  | a :: b :: rest =>
    rw [hasDD_cons₂]
    have ha : ¬ a = '_' := fun hc => h (hc ▸ List.mem_cons_self a _)
    have hrest : '_' ∉ b :: rest := fun hm => h (List.mem_cons_of_mem a hm)
    rw [hasDD_of_no_us hrest]
    simp [ha]

theorem hasDD_append_no_us {a b : Str} (ha : '_' ∉ a) (hb : hasDD b = false) :
    hasDD (a ++ b) = false := by
  induction a with
  | nil => simpa using hb
  | cons x a ih =>
    have hx : ¬ x = '_' := fun hc => ha (hc ▸ List.mem_cons_self x a)
    have ha' : '_' ∉ a := fun hm => ha (List.mem_cons_of_mem x hm)
    rw [List.cons_append]
    match hab : a ++ b with
    | [] => rfl
    | y :: rest =>
      rw [hasDD_cons₂, ← hab, ih ha']
      simp [hx]

theorem hasDD_true_mem {s : Str} (h : hasDD s = true) : '_' ∈ s := by
  match s with
  | [] => simp [hasDD] at h
  | [c] => simp [hasDD] at h
  | a :: b :: rest =>
    rw [hasDD_cons₂] at h
    rcases Bool.or_eq_true_iff.mp h with h | h
    · rcases Bool.and_eq_true_iff.mp h with ⟨h1, _⟩
      have h1' : a = '_' := of_decide_eq_true h1
      rw [h1']
      exact List.mem_cons_self _ _
    · exact List.mem_cons_of_mem a (hasDD_true_mem h)

/-- Every word produced by the snake-case splitter is a nonempty alphanumeric
run. -/
theorem snakeWordsAux_alnum (s : Str) : ∀ cur : Str, (∀ c ∈ cur, isAlnum c = true) →
    ∀ w ∈ snakeWordsAux s cur, w ≠ [] ∧ ∀ c ∈ w, isAlnum c = true := by
  induction s with
  | nil =>
    intro cur hcur w hw
    simp only [snakeWordsAux] at hw
    by_cases hemp : cur.isEmpty
    · simp [hemp] at hw
    · simp only [hemp, if_false] at hw
      rcases List.mem_singleton.mp hw with rfl
      refine ⟨by simpa using hemp, fun c hc => hcur c (List.mem_reverse.mp hc)⟩
  | cons c rest ih =>
    intro cur hcur w hw
    simp only [snakeWordsAux] at hw
    by_cases hal : isAlnum c
    · simp only [hal, if_true] at hw
      rcases cur with _ | ⟨p, cur'⟩
      · simp only at hw
        exact ih [c] (by intro x hx; rcases List.mem_singleton.mp hx with rfl; exact hal) w hw
      · simp only at hw
        split at hw
        · rcases List.mem_cons.mp hw with rfl | hw
          · exact ⟨by simp, fun x hx => hcur x (List.mem_reverse.mp hx)⟩
          · exact ih [c] (by intro x hx; rcases List.mem_singleton.mp hx with rfl; exact hal)
              w hw
        · refine ih (c :: p :: cur') ?_ w hw
          intro x hx
          rcases List.mem_cons.mp hx with rfl | hx
          · exact hal
          · exact hcur x hx
    · simp only [hal, if_false] at hw
      by_cases hemp : cur.isEmpty
      · simp only [hemp, if_true] at hw
        exact ih [] (by intro x hx; simp at hx) w hw
      · simp only [hemp, if_false] at hw
        rcases List.mem_cons.mp hw with rfl | hw
        · refine ⟨by simpa using hemp, fun x hx => hcur x (List.mem_reverse.mp hx)⟩
        · exact ih [] (by intro x hx; simp at hx) w hw

theorem jsToLower_alnum {c : Char} (h : isAlnum c = true) :
    isAlnum (jsToLower c) = true := by
  unfold jsToLower
  cases hfind : upperLowerPairs.find? (fun p => p.1 == c) with
  | none => simpa using h
  | some p =>
    have hmem := List.mem_of_find?_eq_some hfind
    have : ∀ q ∈ upperLowerPairs, isAlnum q.2 = true := by decide
    simpa using this p hmem

theorem mem_joinStr_words {c : Char} {sep : Char} {ps : List Str}
    (h : c ∈ joinStr sep ps) : c = sep ∨ ∃ p ∈ ps, c ∈ p := by
  induction ps with
  | nil => simp [joinStr] at h
  | cons p ps ih =>
    match ps with
    | [] =>
      right
      exact ⟨p, List.mem_cons_self p [], by simpa [joinStr] using h⟩
    | q :: qs =>
      simp only [joinStr, List.mem_append, List.mem_cons] at h
      rcases h with h | h | h
      · exact Or.inr ⟨p, List.mem_cons_self p _, h⟩
      · exact Or.inl h
      · rcases ih (by simpa [joinStr] using h) with h | ⟨r, hr, hcr⟩
        · exact Or.inl h
        · exact Or.inr ⟨r, List.mem_cons_of_mem p hr, hcr⟩

/-- Every character of a snake-cased string is alphanumeric or an
underscore. -/
theorem snakeCase_chars {c : Char} {s : Str} (h : c ∈ snakeCase s) :
    isAlnum c = true ∨ c = '_' := by
  unfold snakeCase at h
  rcases mem_joinStr_words h with h | ⟨w, hw, hcw⟩
  · exact Or.inr h
  · rcases List.mem_map.mp hw with ⟨w0, hw0, rfl⟩
    rcases List.mem_map.mp hcw with ⟨c0, hc0, rfl⟩
    have := (snakeWordsAux_alnum s [] (by intro x hx; simp at hx) w0 hw0).2 c0 hc0
    exact Or.inl (jsToLower_alnum this)

theorem snakeCase_no_dot (s : Str) : '.' ∉ snakeCase s := by
  intro h
  rcases snakeCase_chars h with h | h
  · simp [isAlnum, isAlphaCh, isDigitCh] at h
  · simp at h

theorem snakeCase_no_slash (s : Str) : '/' ∉ snakeCase s := by
  intro h
  rcases snakeCase_chars h with h | h
  · simp [isAlnum, isAlphaCh, isDigitCh] at h
  · simp at h

/-! ### Character-set lemmas for valid semver versions -/

theorem parseNumId_chars {s : Str} {n : Nat} (h : parseNumId s = some n) :
    ∀ c ∈ s, isDigitCh c = true := by
  unfold parseNumId at h
  by_cases hid : isNumId s
  · have := (Bool.and_eq_true_iff.mp ((Bool.and_eq_true_iff.mp
      (by simpa [isNumId] using hid : ((!s.isEmpty) && s.all isDigitCh &&
        (s.head? ≠ some '0' || s.length = 1)) = true)).1)).2
    exact fun c hc => List.all_eq_true.mp this c hc
  · simp [hid] at h

theorem parsePreId_chars {s : Str} {p : PreId} (h : parsePreId s = some p) :
    ∀ c ∈ s, isAlnumDash c = true := by
  unfold parsePreId at h
  by_cases hbad : s.isEmpty || !(s.all isAlnumDash)
  · simp [hbad] at h
  · have : s.all isAlnumDash = true := by
      rcases Bool.or_eq_false_iff.mp (Bool.eq_false_iff.mpr hbad) with ⟨_, h2⟩
      simpa using h2
    exact fun c hc => List.all_eq_true.mp this c hc

/-- The allowed character set of a valid semver string. -/
def svChar (c : Char) : Bool := isAlnum c || c = '.' || c = '-' || c = '+'

theorem parseSemver_chars {s : Str} {sv : SV} (h : parseSemver s = some sv) :
    ∀ c ∈ s, svChar c = true := by
  unfold parseSemver at h
  rcases hplus : breakAt '+' s with ⟨bp, build?⟩
  rw [hplus] at h
  simp only at h
  rcases hdash : breakAt '-' bp with ⟨core, pre?⟩
  rw [hdash] at h
  simp only at h
  cases hps : splitCh '.' core with
  | nil => rw [hps] at h; cases h
  | cons ma tail =>
    match tail with
    | [] => rw [hps] at h; cases h
    | [mi] => rw [hps] at h; cases h
    | mi :: pa :: t4 =>
      match t4 with
      | _ :: _ => rw [hps] at h; cases h
      | [] =>
        rw [hps] at h
        simp only at h
        cases hma : parseNumId ma with
        | none => rw [hma] at h; cases h
        | some major =>
          rw [hma] at h
          cases hmi : parseNumId mi with
          | none => rw [hmi] at h; cases h
          | some minor =>
            rw [hmi] at h
            cases hpa : parseNumId pa with
            | none => rw [hpa] at h; cases h
            | some patch =>
              rw [hpa] at h
              simp only [optionBind_some] at h
              have hcore : ∀ c ∈ core, svChar c = true := by
                intro c hc
                rcases mem_splitCh '.' hc with hdot | ⟨part, hpart, hcp⟩
                · simp [svChar, hdot]
                · rw [hps] at hpart
                  have hdig : isDigitCh c = true := by
                    rcases List.mem_cons.mp hpart with rfl | hpart
                    · exact parseNumId_chars hma c hcp
                    · rcases List.mem_cons.mp hpart with rfl | hpart
                      · exact parseNumId_chars hmi c hcp
                      · rcases List.mem_singleton.mp hpart with rfl
                        exact parseNumId_chars hpa c hcp
                  simp [svChar, isAlnum, hdig]
              have hfin : (∀ c ∈ bp, svChar c = true) →
                  ∀ c ∈ s, svChar c = true := by
                intro hbp
                cases build? with
                | none =>
                  have hsbp : s = bp := breakAt_none hplus
                  intro c hc
                  exact hbp c (hsbp ▸ hc)
                | some b =>
                  rcases breakAt_some hplus with ⟨hse, _⟩
                  have hall : (splitCh '.' b).all isBuildId = true := by
                    cases pre? with
                    | none =>
                      simp only at h
                      by_cases hba : (splitCh '.' b).all isBuildId
                      · exact hba
                      · rw [if_neg hba] at h; cases h
                    | some p =>
                      simp only at h
                      cases hpre : optionMapM parsePreId (splitCh '.' p) with
                      | none => rw [hpre] at h; cases h
                      | some pres =>
                        rw [hpre] at h
                        simp only [optionBind_some] at h
                        by_cases hba : (splitCh '.' b).all isBuildId
                        · exact hba
                        · rw [if_neg hba] at h; cases h
                  have hb : ∀ c ∈ b, svChar c = true := by
                    intro c hc
                    rcases mem_splitCh '.' hc with hdot | ⟨part, hpart, hcp⟩
                    · simp [svChar, hdot]
                    · have hpb := List.all_eq_true.mp hall part hpart
                      have hch := (by simpa [isBuildId] using hpb :
                        ¬ part = [] ∧ ∀ x ∈ part, isAlnumDash x = true).2
                      rcases (by simpa [isAlnumDash] using hch c hcp :
                          isAlnum c = true ∨ c = '-') with hh | hh
                      · simp [svChar, hh]
                      · simp [svChar, hh]
                  intro c hc
                  rw [hse] at hc
                  rcases List.mem_append.mp hc with hc | hc
                  · exact hbp c hc
                  · rcases List.mem_cons.mp hc with rfl | hc
                    · simp [svChar]
                    · exact hb c hc
              refine hfin ?_
              cases pre? with
              | none =>
                have hbpc : bp = core := breakAt_none hdash
                intro c hc
                exact hcore c (hbpc ▸ hc)
              | some p =>
                simp only at h
                cases hpre : optionMapM parsePreId (splitCh '.' p) with
                | none => rw [hpre] at h; cases h
                | some pres =>
                  rcases breakAt_some hdash with ⟨hbpe, _⟩
                  intro c hc
                  rw [hbpe] at hc
                  rcases List.mem_append.mp hc with hc | hc
                  · exact hcore c hc
                  · rcases List.mem_cons.mp hc with rfl | hc
                    · simp [svChar]
                    · rcases mem_splitCh '.' hc with hdot | ⟨part, hpart, hcp⟩
                      · simp [svChar, hdot]
                      · rcases optionMapM_some_mem _ _ _ hpre part hpart with ⟨y, hy⟩
                        have := parsePreId_chars hy c hcp
                        rcases (by simpa [isAlnumDash] using this :
                            isAlnum c = true ∨ c = '-') with hh | hh
                        · simp [svChar, hh]
                        · simp [svChar, hh]

theorem dropWhile_all_neg {p : Char → Bool} {s : Str} (h : ∀ c ∈ s, p c = false) :
    s.dropWhile p = s := by
  cases s with
  | nil => rfl
  | cons a l =>
    rw [List.dropWhile_cons, h a (List.mem_cons_self a l)]
    simp

theorem mem_dropWhileOr {p : Char → Bool} {c : Char} {s : Str} (h : c ∈ s) :
    c ∈ s.dropWhile p ∨ p c = true := by
  have hs : s.takeWhile p ++ s.dropWhile p = s := List.takeWhile_append_dropWhile (p := p) (l := s)
  rw [← hs] at h
  rcases List.mem_append.mp h with h1 | h2
  · exact Or.inr (List.mem_takeWhile_imp h1)
  · exact Or.inl h2

theorem mem_jsTrim {c : Char} {s : Str} (h : c ∈ s) :
    c ∈ jsTrim s ∨ jsWhitespace c = true := by
  unfold jsTrim
  rcases mem_dropWhileOr h with h1 | h2
  · rcases mem_dropWhileOr (List.mem_reverse.mpr h1) with h3 | h4
    · exact Or.inl (List.mem_reverse.mpr h3)
    · exact Or.inr h4
  · exact Or.inr h2

theorem jsTrim_all_neg {s : Str} (h : ∀ c ∈ s, jsWhitespace c = false) :
    jsTrim s = s := by
  unfold jsTrim
  rw [dropWhile_all_neg h,
    dropWhile_all_neg (fun c hc => h c (List.mem_reverse.mp hc)),
    List.reverse_reverse]

theorem mem_stripLeadingV {c : Char} {s : Str} (h : c ∈ s) :
    c ∈ stripLeadingV s ∨ c = 'v' := by
  cases s with
  | nil => cases h
  | cons a l =>
    have hred : stripLeadingV (a :: l) = if a = 'v' then l else a :: l := rfl
    rw [hred]
    by_cases ha : a = 'v'
    · rw [if_pos ha]
      rcases List.mem_cons.mp h with rfl | hl
      · exact Or.inr ha
      · exact Or.inl hl
    · rw [if_neg ha]
      exact Or.inl h

theorem stripLeadingV_not_v {a : Char} {l : Str} (h : ¬ a = 'v') :
    stripLeadingV (a :: l) = a :: l := by
  have hred : stripLeadingV (a :: l) = if a = 'v' then l else a :: l := rfl
  rw [hred, if_neg h]

/-- `semver.parse` coincides with the plain version grammar on strings with
no whitespace and no leading `v`. -/
theorem semverParse_plain {s : Str} (hws : ∀ c ∈ s, jsWhitespace c = false)
    (hv : s.head? ≠ some 'v') : semverParse s = parseSemver s := by
  unfold semverParse
  rw [jsTrim_all_neg hws]
  cases s with
  | nil => rfl
  | cons a l =>
    refine congrArg parseSemver (stripLeadingV_not_v ?_)
    intro ha
    exact hv (by rw [List.head?_cons, ha])

/-- The allowed character set of a `semver.valid` string: the plain grammar's
characters (`v` included) or trimmed whitespace. -/
theorem semverParse_chars {s : Str} {sv : SV} (h : semverParse s = some sv) :
    ∀ c ∈ s, svChar c = true ∨ jsWhitespace c = true := by
  intro c hc
  unfold semverParse at h
  rcases mem_jsTrim hc with ht | hw
  · rcases mem_stripLeadingV ht with hsv | rfl
    · exact Or.inl (parseSemver_chars h c hsv)
    · exact Or.inl (by decide)
  · exact Or.inr hw

theorem not_ws_of_digit {c : Char} (h : isDigitCh c = true) :
    jsWhitespace c = false := by
  cases hw : jsWhitespace c with
  | false => rfl
  | true =>
    unfold jsWhitespace at hw
    have hmem : c ∈ jsWhitespaceChars := of_decide_eq_true hw
    have hall : jsWhitespaceChars.all (fun x => !isDigitCh x) = true := by decide
    have hnd := List.all_eq_true.mp hall c hmem
    rw [h] at hnd
    cases hnd

theorem semverValid_no_us {v : Str} (h : semverValid v = true) : '_' ∉ v := by
  intro hm
  unfold semverValid at h
  cases hp : semverParse v with
  | none => rw [hp] at h; simp at h
  | some sv =>
    rcases semverParse_chars hp '_' hm with hc | hc
    · exact absurd hc (by decide)
    · exact absurd hc (by decide)

theorem semverValid_hasDD {v : Str} (h : semverValid v = true) : hasDD v = false := by
  cases hd : hasDD v with
  | false => rfl
  | true => exact absurd (hasDD_true_mem hd) (semverValid_no_us h)

theorem semverValid_no_slash {v : Str} (h : semverValid v = true) : '/' ∉ v := by
  intro hm
  unfold semverValid at h
  cases hp : semverParse v with
  | none => rw [hp] at h; simp at h
  | some sv =>
    rcases semverParse_chars hp '/' hm with hc | hc
    · exact absurd hc (by decide)
    · exact absurd hc (by decide)

/-- A snake-cased string never contains two adjacent underscores: the words
are nonempty and underscore-free and are joined by single separators. -/
theorem snakeCase_hasDD (s : Str) : hasDD (snakeCase s) = false := by
  unfold snakeCase
  have hws : ∀ w ∈ (snakeWordsAux s []).map (List.map jsToLower),
      w ≠ [] ∧ '_' ∉ w := by
    intro w hw
    rcases List.mem_map.mp hw with ⟨w0, hw0, rfl⟩
    have h0 := snakeWordsAux_alnum s [] (by intro x hx; simp at hx) w0 hw0
    refine ⟨by simpa using h0.1, ?_⟩
    intro hm
    rcases List.mem_map.mp hm with ⟨c0, hc0, hc0e⟩
    have := jsToLower_alnum (h0.2 c0 hc0)
    rw [hc0e] at this
    simp [isAlnum, isAlphaCh, isDigitCh] at this
  generalize hl : (snakeWordsAux s []).map (List.map jsToLower) = ws at hws
  clear hl
  induction ws with
  | nil => rfl
  | cons w ws ih =>
    match ws with
    | [] =>
      have := (hws w (List.mem_cons_self w [])).2
      exact hasDD_of_no_us this
    | w2 :: ws' =>
      show hasDD (w ++ '_' :: joinStr '_' (w2 :: ws')) = false
      refine hasDD_append_no_us (hws w (List.mem_cons_self w _)).2 ?_
      have hw2 := hws w2 (List.mem_cons_of_mem w (List.mem_cons_self w2 ws'))
      have hrest : hasDD (joinStr '_' (w2 :: ws')) = false := by
        refine ih ?_
        intro x hx
        exact hws x (List.mem_cons_of_mem w hx)
      obtain ⟨h2, t2, rfl⟩ : ∃ h t, w2 = h :: t := by
        cases w2 with
        | nil => exact absurd rfl hw2.1
        | cons a b => exact ⟨a, b, rfl⟩
      have hh2 : h2 ≠ '_' := by
        intro hh
        exact hw2.2 (hh ▸ List.mem_cons_self h2 t2)
      match ws' with
      | [] =>
        show hasDD ('_' :: h2 :: t2) = false
        rw [hasDD_cons₂]
        have : hasDD (h2 :: t2) = false := hasDD_of_no_us hw2.2
        simp [hh2, this]
      | w3 :: ws'' =>
        show hasDD ('_' :: ((h2 :: t2) ++ '_' :: joinStr '_' (w3 :: ws''))) = false
        rw [List.cons_append, hasDD_cons₂]
        have hx : hasDD ((h2 :: t2) ++ '_' :: joinStr '_' (w3 :: ws'')) = false := by
          simpa [joinStr] using hrest
        rw [List.cons_append] at hx
        simp [hh2, hx]

/-! ### The codec round trip -/

theorem hasDD_append_cons {w d : Str} {c : Char} (hw : hasDD w = false) (hc : c ≠ '_')
    (hd : hasDD (c :: d) = false) : hasDD (w ++ c :: d) = false := by
  induction w with
  | nil => simpa using hd
  | cons x w ih =>
    rw [List.cons_append]
    match w with
    | [] =>
      rw [List.nil_append, hasDD_cons₂, hd]
      simp [hc]
    | y :: w' =>
      have hxy := hasDD_cons_ne hw
      have ih' := ih (hasDD_cons_false hw)
      rw [List.cons_append] at ih'
      rw [List.cons_append, hasDD_cons₂, ih']
      rcases not_and_or.mp hxy with hx | hy
      · simp [hx]
      · simp [hy]

/-- Parsing a serialized filename `<version><sfx>__<w>.sql`: the components
are recovered exactly. -/
theorem migrationFilenameParse_serialized (version : Str) {w : Str} (sfx : Char)
    (entry : MigrationTypeEntry)
    (hfind : MIGRATION_TYPE_SUFFIX.find? (fun e => e.suffix == [sfx]) = some entry)
    (hver : semverValid version = true)
    (hsfx_us : sfx ≠ '_') (hsfx_sl : sfx ≠ '/')
    (hw_dd : hasDD w = false) (hw_dot : '.' ∉ w) (hw_sl : '/' ∉ w) :
    migrationFilenameParse ((version ++ [sfx]) ++ '_' :: '_' :: (w ++ ".sql".toList)) =
      .ok ⟨entry.type, version, w,
        jsPathExtOfBase ((version ++ [sfx]) ++ '_' :: '_' :: (w ++ ".sql".toList)),
        (version ++ [sfx]) ++ '_' :: '_' :: (w ++ ".sql".toList)⟩ := by
  set fn : Str := (version ++ [sfx]) ++ '_' :: '_' :: (w ++ ".sql".toList) with hfn
  have hnsl : '/' ∉ fn := by
    intro hm
    rw [hfn] at hm
    rcases List.mem_append.mp hm with hm | hm
    · rcases List.mem_append.mp hm with hm | hm
      · exact semverValid_no_slash hver hm
      · rcases List.mem_singleton.mp hm with rfl
        exact hsfx_sl rfl
    · rcases List.mem_cons.mp hm with hm | hm
      · cases hm
      · rcases List.mem_cons.mp hm with hm | hm
        · cases hm
        · rcases List.mem_append.mp hm with hm | hm
          · exact hw_sl hm
          · simp [String.toList] at hm
  have hbase : jsPathBase fn = fn := jsPathBase_no_slash hnsl
  have hno_us : '_' ∉ version ++ [sfx] := by
    intro hm
    rcases List.mem_append.mp hm with hm | hm
    · exact semverValid_no_us hver hm
    · rcases List.mem_singleton.mp hm with rfl
      exact hsfx_us rfl
  have hb_dd : hasDD (w ++ ".sql".toList) = false := by
    have : (".sql".toList : Str) = '.' :: "sql".toList := rfl
    rw [this]
    exact hasDD_append_cons hw_dd (by decide) (by decide)
  have hsplit : splitUU fn = [version ++ [sfx], w ++ ".sql".toList] := by
    rw [hfn]
    exact splitUU_append hno_us hb_dd
  have hlen : (version ++ [sfx]).length - 1 = version.length := by
    simp
  have htake : (version ++ [sfx]).take version.length = version := List.take_left version [sfx]
  have hdrop : (version ++ [sfx]).drop version.length = [sfx] := List.drop_left version [sfx]
  have hsplit2 : splitCh '.' (w ++ ".sql".toList) = w :: splitCh '.' "sql".toList := by
    have : (w ++ ".sql".toList : Str) = w ++ '.' :: "sql".toList := rfl
    rw [this]
    exact splitCh_append hw_dot
  unfold migrationFilenameParse
  rw [hbase]
  simp only [hsplit, List.headD_cons, splitAtIndex, hlen, htake, hdrop, hfind, hver,
    if_true, List.getElem?_cons_succ, List.getElem?_cons_zero, hsplit2]

theorem migrationFilenameSerialize_ok (ty : Str) {v n : Str} (entry : MigrationTypeEntry)
    (hfind : MIGRATION_TYPE_SUFFIX.find? (fun e => e.type == ty) = some entry)
    (hv : semverValid v = true) :
    migrationFilenameSerialize ty v n =
      .ok (v ++ entry.suffix ++ "__".toList ++ snakeCase n ++ entry.ext) := by
  unfold migrationFilenameSerialize
  rw [hfind]
  simp [hv]

/-- The `.sql` filename of an up or down migration, in the association used by
the parse lemma. -/
theorem serializedShape (v w : Str) (sfx : Char) :
    v ++ [sfx] ++ "__".toList ++ w ++ ".sql".toList =
      (v ++ [sfx]) ++ '_' :: '_' :: (w ++ ".sql".toList) := by
  simp

/-- C3: for a well-formed up/down identity whose name is already snake_case,
parse recovers type, version and name from the serialized filename. -/
theorem claim_C3_roundtrip (ty v n : Str)
    (hty : ty = "up".toList ∨ ty = "down".toList)
    (hv : semverValid v = true) (hn : snakeCase n = n) :
    ∃ fn p, migrationFilenameSerialize ty v n = .ok fn ∧
      migrationFilenameParse fn = .ok p ∧
      p.type = ty ∧ p.version = v ∧ p.migrationName = n := by
  have hdd : hasDD n = false := hn ▸ snakeCase_hasDD n
  have hdot : '.' ∉ n := hn ▸ snakeCase_no_dot n
  have hsl : '/' ∉ n := hn ▸ snakeCase_no_slash n
  rcases hty with rfl | rfl
  · have hser := migrationFilenameSerialize_ok
      "up".toList (n := n)
      ⟨"up".toList, "U".toList, ".sql".toList⟩ rfl hv
    rw [hn] at hser
    have hshape : v ++ "U".toList ++ "__".toList ++ n ++ ".sql".toList =
        (v ++ ['U']) ++ '_' :: '_' :: (n ++ ".sql".toList) := serializedShape v n 'U'
    have hpar := migrationFilenameParse_serialized v (w := n) 'U'
      ⟨"up".toList, "U".toList, ".sql".toList⟩ rfl hv
      (by decide) (by decide) hdd hdot hsl
    refine ⟨v ++ "U".toList ++ "__".toList ++ n ++ ".sql".toList,
      ⟨"up".toList, v, n,
        jsPathExtOfBase ((v ++ ['U']) ++ '_' :: '_' :: (n ++ ".sql".toList)),
        (v ++ ['U']) ++ '_' :: '_' :: (n ++ ".sql".toList)⟩, hser, ?_, rfl, rfl, rfl⟩
    rw [hshape, hpar]
  · have hser := migrationFilenameSerialize_ok
      "down".toList (n := n)
      ⟨"down".toList, "D".toList, ".sql".toList⟩ rfl hv
    rw [hn] at hser
    have hshape : v ++ "D".toList ++ "__".toList ++ n ++ ".sql".toList =
        (v ++ ['D']) ++ '_' :: '_' :: (n ++ ".sql".toList) := serializedShape v n 'D'
    have hpar := migrationFilenameParse_serialized v (w := n) 'D'
      ⟨"down".toList, "D".toList, ".sql".toList⟩ rfl hv
      (by decide) (by decide) hdd hdot hsl
    refine ⟨v ++ "D".toList ++ "__".toList ++ n ++ ".sql".toList,
      ⟨"down".toList, v, n,
        jsPathExtOfBase ((v ++ ['D']) ++ '_' :: '_' :: (n ++ ".sql".toList)),
        (v ++ ['D']) ++ '_' :: '_' :: (n ++ ".sql".toList)⟩, hser, ?_, rfl, rfl, rfl⟩
    rw [hshape, hpar]

/-- Witness for C3 at the concrete identity (up, 1.2.3, add_users). -/
theorem claim_C3_roundtrip_witness :
    ∃ fn p, migrationFilenameSerialize "up".toList "1.2.3".toList "add_users".toList =
        .ok fn ∧
      migrationFilenameParse fn = .ok p ∧
      p.type = "up".toList ∧ p.version = "1.2.3".toList ∧
      p.migrationName = "add_users".toList :=
  claim_C3_roundtrip "up".toList "1.2.3".toList "add_users".toList (Or.inl rfl)
    (by decide) (by decide)

/-- C10: the filesystem scan processes exactly the `.sql` entries of a
listing — scanning a listing and scanning its `.sql` sublist agree, so every
other file is ignored — and a generated config module filename is indeed not
a `.sql` entry, while the filename parser would reject it. -/
theorem claim_C10_scan_filter :
    (∀ dir listing, getMigrationsFromFs dir listing =
      getMigrationsFromFs dir
        (listing.filter (fun f => jsPathExt f == ".sql".toList))) ∧
    jsPathExt "1.0.0__add_users.js".toList ≠ ".sql".toList ∧
    migrationFilenameParse "1.0.0__add_users.js".toList =
      .error ("Invalid migration type suffix".toList) := by
  refine ⟨?_, by decide, by rfl⟩
  intro dir listing
  unfold getMigrationsFromFs
  congr 1
  rw [List.filter_filter]
  exact (List.filter_congr (fun x _ => Bool.and_self _)).symm

/-! ### down() -/

/-- C6: `down()` fails with the no-migration-table error when the ledger
table does not exist and with the no-applied-migrations error when it exists
but is empty; the embedding returns no executed file and no new ledger on an
error, mirroring the source where both throws happen before any SQL is
executed or any row deleted. -/
theorem claim_C6_down_errors :
    (∀ cwd dir now loadConfig contents (db : Db), db.tableCreated = false →
      down cwd dir now loadConfig db contents =
        .error ("Migration table not created".toList)) ∧
    (∀ cwd dir now loadConfig contents (db : Db), db.tableCreated = true →
      db.rows = [] →
      down cwd dir now loadConfig db contents =
        .error ("No migrations applied".toList)) := by
  constructor
  · intro cwd dir now loadConfig contents db h
    unfold down getMigrationTableStateFromDb
    rw [h]
    rfl
  · intro cwd dir now loadConfig contents db h hrows
    unfold down getMigrationTableStateFromDb
    rw [h, hrows]
    rfl

/-- Witness for C6 at a missing table and at an empty ledger. -/
theorem claim_C6_down_errors_witness :
    down [] [] [] (fun _ => none) ⟨false, []⟩ (fun _ => []) =
        .error ("Migration table not created".toList) ∧
    down [] [] [] (fun _ => none) ⟨true, []⟩ (fun _ => []) =
        .error ("No migrations applied".toList) :=
  ⟨claim_C6_down_errors.1 [] [] [] (fun _ => none) (fun _ => []) ⟨false, []⟩ rfl,
   claim_C6_down_errors.2 [] [] [] (fun _ => none) (fun _ => []) ⟨true, []⟩ rfl rfl⟩

/-- C7: with last ledger row of version `v`, `down()` executes exactly the
down file whose name encodes `v` and deletes exactly that ledger row, leaving
every other row in place. -/
theorem claim_C7_down_single (cwd dir now : Str) (loadConfig : Str → Option SqlFileConfig)
    (contents : Str → Str) (db : Db) (init : List LedgerRow) (last : LedgerRow)
    (hdb : db.tableCreated = true) (hrows : db.rows = init ++ [last])
    (hver : semverValid last.version = true)
    (huniq : ∀ r ∈ init, r.version ≠ last.version)
    (hlc : ∀ p, loadConfig p = none) :
    down cwd dir now loadConfig db contents =
      .ok ({ tableCreated := true, rows := init },
        [pathJoin dir (last.version ++ "D".toList ++ "__".toList ++
          snakeCase last.name ++ ".sql".toList)]) := by
  have hstate : getMigrationTableStateFromDb db = .migration_applied last := by
    unfold getMigrationTableStateFromDb
    rw [hdb, hrows, List.getLast?_concat]
    rfl
  have hser := migrationFilenameSerialize_ok "down".toList
    (v := last.version) (n := last.name)
    ⟨"down".toList, "D".toList, ".sql".toList⟩ rfl hver
  have hserc := migrationFilenameSerialize_ok "config".toList
    (v := last.version) (n := last.name)
    ⟨"config".toList, [], ".js".toList⟩ rfl hver
  have hw := snakeCase_hasDD last.name
  have hshape : last.version ++ "D".toList ++ "__".toList ++
      snakeCase last.name ++ ".sql".toList =
      (last.version ++ ['D']) ++ '_' :: '_' :: (snakeCase last.name ++ ".sql".toList) :=
    serializedShape last.version (snakeCase last.name) 'D'
  have hpar := migrationFilenameParse_serialized last.version
    (w := snakeCase last.name) 'D'
    ⟨"down".toList, "D".toList, ".sql".toList⟩ rfl hver
    (by decide) (by decide) hw (snakeCase_no_dot _) (snakeCase_no_slash _)
  have hnsl : '/' ∉ last.version ++ "D".toList ++ "__".toList ++
      snakeCase last.name ++ ".sql".toList := by
    rw [hshape]
    intro hm
    rcases List.mem_append.mp hm with hm | hm
    · rcases List.mem_append.mp hm with hm | hm
      · exact semverValid_no_slash hver hm
      · exact absurd (List.mem_singleton.mp hm) (by decide)
    · rcases List.mem_cons.mp hm with hm | hm
      · exact absurd hm (by decide)
      · rcases List.mem_cons.mp hm with hm | hm
        · exact absurd hm (by decide)
        · rcases List.mem_append.mp hm with hm | hm
          · exact snakeCase_no_slash _ hm
          · simp [String.toList] at hm
  unfold down
  rw [hstate]
  simp only [hser, hserc, exceptBind_ok]
  unfold getMigrationConfigPath
  simp only [hserc, exceptBind_ok, hlc]
  rw [jsPathBase_join hnsl]
  rw [show (migrationFilenameParse (last.version ++ "D".toList ++ "__".toList ++
      snakeCase last.name ++ ".sql".toList)) = _ from hshape ▸ hpar]
  simp only [exceptBind_ok]
  rw [hrows, List.filter_append]
  have hkeep : init.filter
      (fun r => !(r.version == (last.version : Str))) = init := by
    rw [List.filter_eq_self]
    intro r hr
    simpa using huniq r hr
  have hdrop : ([last] : List LedgerRow).filter
      (fun r => !(r.version == (last.version : Str))) = [] := by
    simp [List.filter]
  rw [hkeep, hdrop, List.append_nil]
  rw [hdb]

/-- Witness for C7: ledger (1.0.0, then 2.0.0); down reverts exactly 2.0.0. -/
theorem claim_C7_down_single_witness :
    down "cwd".toList "mig".toList [] (fun _ => none)
      ⟨true, [⟨"1.0.0".toList, "a".toList, "1.0.0U__a.sql".toList, []⟩,
              ⟨"2.0.0".toList, "b".toList, "2.0.0U__b.sql".toList, []⟩]⟩
      (fun _ => []) =
      .ok (⟨true, [⟨"1.0.0".toList, "a".toList, "1.0.0U__a.sql".toList, []⟩]⟩,
        [pathJoin "mig".toList ("2.0.0".toList ++ "D".toList ++ "__".toList ++
          snakeCase "b".toList ++ ".sql".toList)]) :=
  claim_C7_down_single "cwd".toList "mig".toList [] (fun _ => none) (fun _ => [])
    ⟨true, [⟨"1.0.0".toList, "a".toList, "1.0.0U__a.sql".toList, []⟩,
            ⟨"2.0.0".toList, "b".toList, "2.0.0U__b.sql".toList, []⟩]⟩
    [⟨"1.0.0".toList, "a".toList, "1.0.0U__a.sql".toList, []⟩]
    ⟨"2.0.0".toList, "b".toList, "2.0.0U__b.sql".toList, []⟩
    rfl rfl (by decide) (by decide) (fun _ => rfl)

/-! ### Decimal rendering produces numeric identifiers -/

theorem natDigitsGo_zero (fuel : Nat) (acc : Str) : natDigitsGo fuel 0 acc = acc := by
  cases fuel <;> rfl

theorem digitChar_isDigit {m : Nat} (h : m < 10) : isDigitCh (digitChar m) = true := by
  interval_cases m <;> decide

theorem digitChar_ne_zero {m : Nat} (h : m < 10) (h0 : m ≠ 0) : digitChar m ≠ '0' := by
  interval_cases m <;> first | exact absurd rfl h0 | decide

theorem natDigitsGo_spec : ∀ fuel n acc, n ≠ 0 → n < fuel →
    ∃ d rest, natDigitsGo fuel n acc = d :: rest ++ acc ∧ isDigitCh d = true ∧
      d ≠ '0' ∧ ∀ c ∈ rest, isDigitCh c = true := by
  intro fuel
  induction fuel with
  | zero => intro n acc h0 hlt; omega
  | succ f ih =>
    intro n acc h0 hlt
    simp only [natDigitsGo, h0, if_false]
    by_cases hq : n / 10 = 0
    · have h10 : n < 10 := by omega
      rw [hq, natDigitsGo_zero]
      refine ⟨digitChar (n % 10), [], rfl, ?_, ?_, by intro c hc; simp at hc⟩
      · exact digitChar_isDigit (Nat.mod_lt n (by norm_num))
      · rw [Nat.mod_eq_of_lt h10]
        exact digitChar_ne_zero h10 h0
    · have hlt' : n / 10 < f := by
        have h1 : n / 10 < n := Nat.div_lt_self (by omega) (by norm_num)
        omega
      rcases ih (n / 10) (digitChar (n % 10) :: acc) hq hlt' with ⟨d, rest, heq, hd, hne, hrest⟩
      refine ⟨d, rest ++ [digitChar (n % 10)], ?_, hd, hne, ?_⟩
      · rw [heq]
        simp
      · intro c hc
        rcases List.mem_append.mp hc with hc | hc
        · exact hrest c hc
        · rcases List.mem_singleton.mp hc with rfl
          exact digitChar_isDigit (Nat.mod_lt n (by norm_num))

theorem natStr_isNumId (n : Nat) : isNumId (natStr n) = true := by
  by_cases h0 : n = 0
  · subst h0; decide
  · unfold natStr
    rw [if_neg h0]
    rcases natDigitsGo_spec (n + 1) n [] h0 (by omega) with ⟨d, rest, heq, hd, hne, hrest⟩
    rw [heq, List.append_nil]
    unfold isNumId
    simp only [List.isEmpty_cons, Bool.not_false, List.all_cons, List.head?_cons,
      List.length_cons]
    rw [hd]
    have hall : rest.all isDigitCh = true := List.all_eq_true.mpr hrest
    rw [hall]
    simp [hne]

theorem natStr_digits {n : Nat} {c : Char} (hc : c ∈ natStr n) : isDigitCh c = true := by
  have h := natStr_isNumId n
  unfold isNumId at h
  have := (Bool.and_eq_true_iff.mp ((Bool.and_eq_true_iff.mp h).1)).2
  exact List.all_eq_true.mp this c hc

theorem natStr_not_mem {n : Nat} {c : Char} (hdig : isDigitCh c = false) : c ∉ natStr n := by
  intro hm
  rw [natStr_digits hm] at hdig
  cases hdig

/-- The rendering of an inc-major result, `<major>.0.0`. -/
theorem renderSV_core (M : Nat) :
    renderSV ⟨M, 0, 0, [], []⟩ = natStr M ++ ".0.0".toList := by
  show natStr M ++ '.' :: natStr 0 ++ '.' :: natStr 0 ++ [] = natStr M ++ ".0.0".toList
  simp [natStr]

theorem semverValid_core (M : Nat) : semverValid (natStr M ++ ".0.0".toList) = true := by
  have hplus : breakAt '+' (natStr M ++ ".0.0".toList) =
      (natStr M ++ ".0.0".toList, none) := by
    refine breakAt_no_sep ?_
    intro hm
    rcases List.mem_append.mp hm with hm | hm
    · exact absurd (natStr_digits hm) (by decide)
    · simp [String.toList] at hm
  have hdash : breakAt '-' (natStr M ++ ".0.0".toList) =
      (natStr M ++ ".0.0".toList, none) := by
    refine breakAt_no_sep ?_
    intro hm
    rcases List.mem_append.mp hm with hm | hm
    · exact absurd (natStr_digits hm) (by decide)
    · simp [String.toList] at hm
  have hsplit : splitCh '.' (natStr M ++ ".0.0".toList) =
      [natStr M, ['0'], ['0']] := by
    have hshape : (natStr M ++ ".0.0".toList : Str) = natStr M ++ '.' :: "0.0".toList := rfl
    rw [hshape, splitCh_append (natStr_not_mem (by decide))]
    rfl
  have hplain : semverParse (natStr M ++ ".0.0".toList) =
      parseSemver (natStr M ++ ".0.0".toList) := by
    refine semverParse_plain ?_ ?_
    · intro c hc
      rcases List.mem_append.mp hc with hm | hm
      · exact not_ws_of_digit (natStr_digits hm)
      · have hm4 : c ∈ ['.', '0', '.', '0'] := hm
        fin_cases hm4 <;> decide
    · cases hn : natStr M with
      | nil =>
        have hnum := natStr_isNumId M
        rw [hn] at hnum
        exact absurd hnum (by decide)
      | cons a l =>
        intro hv
        have ha : a = 'v' := by simpa using hv
        have hd := natStr_digits (show a ∈ natStr M by rw [hn]; exact List.mem_cons_self a l)
        rw [ha] at hd
        exact absurd hd (by decide)
  unfold semverValid
  rw [hplain]
  unfold parseSemver
  rw [hplus]
  simp only
  rw [hdash]
  simp only
  rw [hsplit]
  simp only
  rw [show parseNumId (natStr M) = some (digitsToNat (natStr M)) from by
    unfold parseNumId; rw [natStr_isNumId]; rfl]
  rfl

theorem semverValid_incMajor (x : SV) :
    semverValid (renderSV (svIncMajor x)) = true := by
  unfold svIncMajor
  split
  · rw [renderSV_core]; exact semverValid_core _
  · rw [renderSV_core]; exact semverValid_core _

/-! ### C9: scaffolding the next migration files -/

theorem migrationFilenameParse_ok_valid {f : Str} {p : ParsedMigration}
    (h : migrationFilenameParse f = .ok p) : semverValid p.version = true := by
  unfold migrationFilenameParse at h
  simp only at h
  rcases hsa : splitAtIndex ((splitUU (jsPathBase f)).headD [])
      (((splitUU (jsPathBase f)).headD []).length - 1) with ⟨version, suffixType⟩
  rw [hsa] at h
  simp only at h
  cases hfind : MIGRATION_TYPE_SUFFIX.find? (fun e => e.suffix == suffixType) with
  | none => rw [hfind] at h; cases h
  | some entry =>
    rw [hfind] at h
    simp only at h
    by_cases hv : semverValid version
    · rw [if_pos hv] at h
      cases hp1 : (splitUU (jsPathBase f))[1]? with
      | none => rw [hp1] at h; cases h
      | some mne =>
        rw [hp1] at h
        cases h
        exact hv
    · rw [if_neg hv] at h
      cases h

theorem getMigrationsFromFs_valid {dir : Str} {listing : List Str}
    {migs : List FsMigration} (h : getMigrationsFromFs dir listing = .ok migs) :
    ∀ m ∈ migs, semverValid m.version = true := by
  intro m hm
  rcases exceptMapM_ok_mem _ _ _ h m hm with ⟨f, _, hf⟩
  cases hpf : migrationFilenameParse f with
  | error e => rw [hpf] at hf; cases hf
  | ok p =>
    rw [hpf] at hf
    simp only [exceptMap_ok] at hf
    cases hf
    exact migrationFilenameParse_ok_valid hpf

/-- C9 (amended): `createNextMigrationFiles` scaffolds at the major increment
of the version of the **last `.sql` file in the directory listing** (1.0.0
when there is none), and the name segment of the three files is the
snake_case transliteration of the given name. -/
theorem claim_C9_amended (dir name : Str) (listing : List Str) (migs : List FsMigration)
    (hfs : getMigrationsFromFs dir listing = .ok migs) :
    ∃ sv, semverParse (((migs.getLast?).map (fun m => m.version)).getD
        "0.0.0".toList) = some sv ∧
      createNextMigrationFiles dir listing name =
        .ok (renderSV (svIncMajor sv),
          renderSV (svIncMajor sv) ++ "U".toList ++ "__".toList ++
            snakeCase name ++ ".sql".toList,
          renderSV (svIncMajor sv) ++ "D".toList ++ "__".toList ++
            snakeCase name ++ ".sql".toList,
          renderSV (svIncMajor sv) ++ "__".toList ++ snakeCase name ++ ".js".toList) := by
  have hsv : ∃ sv, semverParse (((migs.getLast?).map (fun m => m.version)).getD
      "0.0.0".toList) = some sv := by
    cases hlast : migs.getLast? with
    | none => exact ⟨⟨0, 0, 0, [], []⟩, by decide⟩
    | some m =>
      have hm : m ∈ migs := List.mem_of_mem_getLast? hlast
      have hval := getMigrationsFromFs_valid hfs m hm
      unfold semverValid at hval
      cases hp : semverParse m.version with
      | none => rw [hp] at hval; cases hval
      | some sv => exact ⟨sv, by simpa using hp⟩
  rcases hsv with ⟨sv, hsv⟩
  refine ⟨sv, hsv, ?_⟩
  have hvalid := semverValid_incMajor sv
  unfold createNextMigrationFiles getNextMigrationVersionFromFs
  rw [hfs]
  simp only [exceptBind_ok]
  unfold semverIncMajor
  rw [hsv]
  simp only [exceptBind_ok]
  rw [migrationFilenameSerialize_ok "up".toList (n := name)
    ⟨"up".toList, "U".toList, ".sql".toList⟩ rfl hvalid]
  simp only [exceptBind_ok]
  rw [migrationFilenameSerialize_ok "down".toList (n := name)
    ⟨"down".toList, "D".toList, ".sql".toList⟩ rfl hvalid]
  simp only [exceptBind_ok]
  rw [migrationFilenameSerialize_ok "config".toList (n := name)
    ⟨"config".toList, [], ".js".toList⟩ rfl hvalid]
  simp only [exceptBind_ok]
  simp

/-- Witness for C9 (amended): an empty directory and name `add users` yield
version 1.0.0 and name segment `add_users`. -/
theorem claim_C9_amended_witness :
    createNextMigrationFiles "mig".toList [] "add users".toList =
      .ok ("1.0.0".toList, "1.0.0U__add_users.sql".toList,
        "1.0.0D__add_users.sql".toList, "1.0.0__add_users.js".toList) := by
  have h := claim_C9_amended "mig".toList "add users".toList [] [] rfl
  rcases h with ⟨sv, hsv, hc⟩
  have hsv0 : sv = ⟨0, 0, 0, [], []⟩ := by
    have h000 : ((Option.map (fun m : FsMigration => m.version) none).getD
        "0.0.0".toList) = "0.0.0".toList := rfl
    rw [show (([] : List FsMigration).getLast?) = none from rfl, h000] at hsv
    have : semverParse "0.0.0".toList = some ⟨0, 0, 0, [], []⟩ := by decide
    rw [this] at hsv
    exact (Option.some_inj.mp hsv).symm
  subst hsv0
  rw [hc]
  rfl

/-- C9 (counterexample): with listing order `2.0.0U__a.sql`, `1.0.0U__b.sql`,
scaffolding picks the increment of the **listing-last** version 1.0.0 and
produces 2.0.0, a version that is not semver-greater than the on-disk
highest version 2.0.0 — refuting "the next major semantic version after the
highest version present on disk" (which would be 3.0.0). -/
theorem claim_C9_counterexample :
    (createNextMigrationFiles "mig".toList
        ["2.0.0U__a.sql".toList, "1.0.0U__b.sql".toList] "x".toList) =
      .ok ("2.0.0".toList, "2.0.0U__x.sql".toList, "2.0.0D__x.sql".toList,
        "2.0.0__x.js".toList) ∧
    semverGtB "2.0.0".toList "1.0.0".toList = true ∧
    semverGtB "2.0.0".toList "2.0.0".toList = false := by
  refine ⟨by rfl, by decide, by decide⟩

/-! ### up(): the pending set and the execution loop -/

/-- The row the source treats as the last applied migration before running
`up`: the last ledger row when the ledger table exists, else nothing. -/
def lastLedger (db : Db) : Option LedgerRow :=
  if db.tableCreated then db.rows.getLast? else none

/-- The pending set computed by `up()` (lines 317-335): on-disk up files whose
version is absent from the parsed ledger and, when a last applied row exists,
semver-greater than its version — in scan order. -/
def pendingMigrations (migs : List FsMigration) (applied : List ParsedMigration)
    (last? : Option LedgerRow) : List FsMigration :=
  ((migs.filter (fun m => m.type == "up".toList)).filter
      (fun m => !(applied.any (fun a => a.version == m.version)))).filter
    (fun m =>
      match last? with
      | none => true
      | some l => semverGtB m.version l.version)

/-- The ledger row inserted for an executed up migration. -/
def appliedRow (md5 contents : Str → Str) (m : FsMigration) : LedgerRow :=
  ⟨m.version, m.migrationName, m.filename, md5 (contents m.filepath)⟩

theorem migrationFilenameParse_ok_filename {f : Str} {p : ParsedMigration}
    (h : migrationFilenameParse f = .ok p) : p.filename = jsPathBase f := by
  unfold migrationFilenameParse at h
  simp only at h
  rcases hsa : splitAtIndex ((splitUU (jsPathBase f)).headD [])
      (((splitUU (jsPathBase f)).headD []).length - 1) with ⟨version, suffixType⟩
  rw [hsa] at h
  simp only at h
  cases hfind : MIGRATION_TYPE_SUFFIX.find? (fun e => e.suffix == suffixType) with
  | none => rw [hfind] at h; cases h
  | some entry =>
    rw [hfind] at h
    simp only at h
    by_cases hv : semverValid version
    · rw [if_pos hv] at h
      cases hp1 : (splitUU (jsPathBase f))[1]? with
      | none => rw [hp1] at h; cases h
      | some mne =>
        rw [hp1] at h
        cases h
        rfl
    · rw [if_neg hv] at h
      cases h

/-- The filename parser only looks at the base name of its input. -/
theorem migrationFilenameParse_base {x y : Str} (h : jsPathBase x = jsPathBase y) :
    migrationFilenameParse x = migrationFilenameParse y := by
  unfold migrationFilenameParse
  rw [h]

theorem getMigrationTableState_false {db : Db} (h : db.tableCreated = false) :
    getMigrationTableStateFromDb db = .table_not_created := by
  unfold getMigrationTableStateFromDb
  rw [h]
  rfl

theorem createMigrationTable_ok (now : Str) {db : Db} (h : db.tableCreated = false) :
    createMigrationTable now db = .ok { db with tableCreated := true } := by
  unfold createMigrationTable
  rw [getMigrationTableState_false h]
  simp only [ne_eq, not_true_eq_false, if_false, reduceIte]
  have hsort : sortTablesByReferences migrationTableConfig.tables =
      .ok migrationTableConfig.tables := by rfl
  unfold generateSqlFileContent
  rw [hsort]
  rfl

theorem semverGtE_eq {a b : Str} (ha : semverValid a = true) (hb : semverValid b = true) :
    semverGtE a b = .ok (semverGtB a b) := by
  unfold semverValid at ha hb
  unfold semverGtE semverGtB
  cases hpa : semverParse a with
  | none => rw [hpa] at ha; cases ha
  | some x =>
    cases hpb : semverParse b with
    | none => rw [hpb] at hb; cases hb
    | some y => rfl

/-- What the scan guarantees for each scanned migration: a valid version, a
slash-free listing filename, and a re-parse of the joined path agreeing with
the scan's parse. -/
theorem getMigrationsFromFs_elim {dir : Str} {listing : List Str}
    {migs : List FsMigration} (hfs : getMigrationsFromFs dir listing = .ok migs)
    (hsl : ∀ f ∈ listing, '/' ∉ f) :
    ∀ m ∈ migs, semverValid m.version = true ∧
      jsPathBase m.filepath = m.filename ∧
      migrationFilenameParse m.filepath = .ok m.toParsedMigration := by
  intro m hm
  rcases exceptMapM_ok_mem _ _ _ hfs m hm with ⟨f, hfmem, hf⟩
  have hfl : f ∈ listing := List.mem_of_mem_filter hfmem
  have hnsl : '/' ∉ f := hsl f hfl
  cases hpf : migrationFilenameParse f with
  | error e => rw [hpf] at hf; cases hf
  | ok p =>
    rw [hpf] at hf
    simp only [exceptMap_ok] at hf
    cases hf
    have hbase : jsPathBase (pathJoin dir f) = f := jsPathBase_join hnsl
    have hbasef : jsPathBase f = f := jsPathBase_no_slash hnsl
    refine ⟨migrationFilenameParse_ok_valid hpf, ?_, ?_⟩
    · show jsPathBase (pathJoin dir f) = p.filename
      rw [hbase, migrationFilenameParse_ok_filename hpf, hbasef]
    · show migrationFilenameParse (pathJoin dir f) = .ok p
      rw [migrationFilenameParse_base (x := pathJoin dir f) (y := f)
        (by rw [hbase, hbasef]), hpf]

/-- The execution loop inserts one ledger row per pending migration and logs
its path, in order. -/
theorem runUpMigrations_spec (cwd dir now : Str) (loadConfig : Str → Option SqlFileConfig)
    (md5 : Str → Str) (hlc : ∀ p, loadConfig p = none) :
    ∀ (list : List FsMigration) (db : Db) (contents : Str → Str) (log : List Str),
    (∀ m ∈ list, semverValid m.version = true ∧
      jsPathBase m.filepath = m.filename ∧
      migrationFilenameParse m.filepath = .ok m.toParsedMigration) →
    runUpMigrations cwd dir now loadConfig md5 list db contents log =
      .ok ({ db with rows := db.rows ++ list.map (appliedRow md5 contents) }, contents,
        log ++ list.map (fun m => m.filepath)) := by
  intro list
  induction list with
  | nil =>
    intro db contents log hreq
    simp [runUpMigrations]
  | cons m rest ih =>
    intro db contents log hreq
    rcases hreq m (List.mem_cons_self m rest) with ⟨hver, hbase, hparse⟩
    unfold runUpMigrations getMigrationConfigPath
    rw [migrationFilenameSerialize_ok "config".toList (v := m.version)
      (n := m.migrationName) ⟨"config".toList, [], ".js".toList⟩ rfl hver]
    simp only [exceptBind_ok, hlc]
    rw [hparse]
    simp only [exceptBind_ok]
    rw [hbase]
    rw [ih { db with rows := db.rows ++
        [⟨m.version, m.migrationName, m.filename, md5 (contents m.filepath)⟩] }
      contents (log ++ [m.filepath]) (fun x hx => hreq x (List.mem_cons_of_mem m hx))]
    simp [appliedRow, List.append_assoc]

/-- The main description of a successful `up()` run: the migrations executed
are exactly the pending ones in scan order, and the ledger gains one row per
executed migration, in order. -/
theorem up_spec (cwd dir now : Str) (loadConfig : Str → Option SqlFileConfig)
    (md5 : Str → Str) (db : Db) (listing : List Str) (contents : Str → Str)
    (migs : List FsMigration) (applied : List ParsedMigration)
    (hlc : ∀ p, loadConfig p = none)
    (hnc : db.tableCreated = false → db.rows = [])
    (hfs : getMigrationsFromFs dir listing = .ok migs)
    (happ : exceptMapM (fun r => migrationFilenameParse r.filename) db.rows.reverse =
      .ok applied)
    (hver : ∀ r ∈ db.rows, semverValid r.version = true)
    (hsl : ∀ f ∈ listing, '/' ∉ f) :
    up cwd dir now loadConfig md5 db listing contents =
      .ok (⟨true, db.rows ++ (pendingMigrations migs applied (lastLedger db)).map
          (appliedRow md5 contents)⟩,
        (pendingMigrations migs applied (lastLedger db)).map (fun m => m.filepath)) := by
  have hdb2 : ensureTable now db = .ok ⟨true, db.rows⟩ := by
    unfold ensureTable
    by_cases hTC : db.tableCreated = true
    · have hstate : getMigrationTableStateFromDb db ≠ .table_not_created := by
        unfold getMigrationTableStateFromDb
        rw [hTC]
        cases db.rows.getLast? <;> simp
      rw [if_neg hstate]
      obtain ⟨tc, rows⟩ := db
      simp only at hTC
      subst hTC
      rfl
    · have hTC' : db.tableCreated = false := by simpa using hTC
      rw [if_pos (getMigrationTableState_false hTC'), createMigrationTable_ok now hTC']
  have hlastA : (match getMigrationTableStateFromDb db with
      | TableState.migration_applied r => some r
      | _ => none) = lastLedger db := by
    unfold getMigrationTableStateFromDb lastLedger
    by_cases hTC : db.tableCreated = true
    · rw [hTC]
      simp only [Bool.not_true]
      cases db.rows.getLast? <;> rfl
    · have hTC' : db.tableCreated = false := by simpa using hTC
      rw [hTC']
      rfl
  have hlastMem : ∀ l, lastLedger db = some l → l ∈ db.rows := by
    intro l hl
    unfold lastLedger at hl
    by_cases hTC : db.tableCreated = true
    · rw [hTC] at hl
      simp only [if_true] at hl
      exact List.mem_of_mem_getLast? hl
    · have hTC' : db.tableCreated = false := by simpa using hTC
      rw [hTC'] at hl
      cases hl
  have hmigsOk := getMigrationsFromFs_elim hfs hsl
  have hgt : ∀ m ∈ (migs.filter (fun m => m.type == "up".toList)).filter
      (fun m => !(applied.any (fun a => a.version == m.version))),
      (match lastLedger db with
       | none => Except.ok true
       | some l => semverGtE m.version l.version) =
        .ok (match lastLedger db with
             | none => true
             | some l => semverGtB m.version l.version) := by
    intro m hm
    have hmm : m ∈ migs :=
      List.mem_of_mem_filter (List.mem_of_mem_filter hm)
    cases hl : lastLedger db with
    | none => rfl
    | some l =>
      exact semverGtE_eq (hmigsOk m hmm).1 (hver l (hlastMem l hl))
  simp only [up]
  rw [hdb2]
  simp only [exceptBind_ok]
  rw [hlastA, hfs]
  simp only [exceptBind_ok]
  rw [show getAppliedMigrationsFromDb ⟨true, db.rows⟩ = .ok applied from happ]
  simp only [exceptBind_ok]
  rw [exceptFilter_eq_filter _
    (fun m => match lastLedger db with
              | none => true
              | some l => semverGtB m.version l.version) _ hgt]
  simp only [exceptBind_ok]
  rw [runUpMigrations_spec cwd dir now loadConfig md5 hlc _ ⟨true, db.rows⟩ contents []
    (fun m hm => hmigsOk m (List.mem_of_mem_filter (List.mem_of_mem_filter
      (List.mem_of_mem_filter hm))))]
  rfl

/-- C2: the migrations `up()` applies are exactly the on-disk up files whose
version is absent from the ledger and, when a last applied row exists,
semver-greater than its version (`pendingMigrations`); they are executed in
scan order and each inserts its ledger row. -/
theorem claim_C2_pending_set (cwd dir now : Str) (loadConfig : Str → Option SqlFileConfig)
    (md5 : Str → Str) (db : Db) (listing : List Str) (contents : Str → Str)
    (migs : List FsMigration) (applied : List ParsedMigration)
    (hlc : ∀ p, loadConfig p = none)
    (hnc : db.tableCreated = false → db.rows = [])
    (hfs : getMigrationsFromFs dir listing = .ok migs)
    (happ : exceptMapM (fun r => migrationFilenameParse r.filename) db.rows.reverse =
      .ok applied)
    (hver : ∀ r ∈ db.rows, semverValid r.version = true)
    (hsl : ∀ f ∈ listing, '/' ∉ f) :
    up cwd dir now loadConfig md5 db listing contents =
      .ok (⟨true, db.rows ++ (pendingMigrations migs applied (lastLedger db)).map
          (appliedRow md5 contents)⟩,
        (pendingMigrations migs applied (lastLedger db)).map (fun m => m.filepath)) :=
  up_spec cwd dir now loadConfig md5 db listing contents migs applied
    hlc hnc hfs happ hver hsl

/-- Witness for C2 at the spec example: last applied 2.0.0, on-disk versions
1.0.0, 2.0.0, 3.0.0 — only 3.0.0 is applied. -/
theorem claim_C2_pending_set_witness :
    up "cwd".toList "mig".toList [] (fun _ => none) (fun _ => [])
      ⟨true, [⟨"1.0.0".toList, "a".toList, "1.0.0U__a.sql".toList, []⟩,
              ⟨"2.0.0".toList, "b".toList, "2.0.0U__b.sql".toList, []⟩]⟩
      ["1.0.0U__a.sql".toList, "2.0.0U__b.sql".toList, "3.0.0U__c.sql".toList]
      (fun _ => []) =
      .ok (⟨true, [⟨"1.0.0".toList, "a".toList, "1.0.0U__a.sql".toList, []⟩,
                   ⟨"2.0.0".toList, "b".toList, "2.0.0U__b.sql".toList, []⟩,
                   ⟨"3.0.0".toList, "c".toList, "3.0.0U__c.sql".toList, []⟩]⟩,
        [pathJoin "mig".toList "3.0.0U__c.sql".toList]) := by
  have h := claim_C2_pending_set "cwd".toList "mig".toList [] (fun _ => none)
    (fun _ => [])
    ⟨true, [⟨"1.0.0".toList, "a".toList, "1.0.0U__a.sql".toList, []⟩,
            ⟨"2.0.0".toList, "b".toList, "2.0.0U__b.sql".toList, []⟩]⟩
    ["1.0.0U__a.sql".toList, "2.0.0U__b.sql".toList, "3.0.0U__c.sql".toList]
    (fun _ => []) _ _ (fun _ => rfl) (by intro h; simp at h) rfl rfl
    (by decide) (by decide)
  exact h.trans (by rfl)

/-- C1 (counterexample to the claim as stated): with no migrations applied
and the filesystem listing the up files in the order 2.0.0, 1.0.0, `up()`
executes 2.0.0 before 1.0.0 — descending, not ascending — and leaves the
ledger's last row at 1.0.0 rather than at the greatest version 2.0.0. -/
theorem claim_C1_counterexample :
    up "cwd".toList "mig".toList [] (fun _ => none) (fun _ => []) ⟨true, []⟩
      ["2.0.0U__b.sql".toList, "1.0.0U__a.sql".toList] (fun _ => []) =
      .ok (⟨true, [⟨"2.0.0".toList, "b".toList, "2.0.0U__b.sql".toList, []⟩,
                   ⟨"1.0.0".toList, "a".toList, "1.0.0U__a.sql".toList, []⟩]⟩,
        [pathJoin "mig".toList "2.0.0U__b.sql".toList,
         pathJoin "mig".toList "1.0.0U__a.sql".toList]) ∧
    semverGtB "2.0.0".toList "1.0.0".toList = true :=
  ⟨by rfl, by decide⟩

/-- C1 (amended): `up()` applies the pending migrations in the order the
filesystem listing presents them; when the scanned migrations are in
ascending semantic-version order, the pending ones are applied ascending and
the ledger's last row is the row of the greatest pending version. -/
theorem claim_C1_listing_order (cwd dir now : Str) (loadConfig : Str → Option SqlFileConfig)
    (md5 : Str → Str) (db : Db) (listing : List Str) (contents : Str → Str)
    (migs : List FsMigration) (applied : List ParsedMigration)
    (hlc : ∀ p, loadConfig p = none)
    (hnc : db.tableCreated = false → db.rows = [])
    (hfs : getMigrationsFromFs dir listing = .ok migs)
    (happ : exceptMapM (fun r => migrationFilenameParse r.filename) db.rows.reverse =
      .ok applied)
    (hver : ∀ r ∈ db.rows, semverValid r.version = true)
    (hsl : ∀ f ∈ listing, '/' ∉ f)
    (hasc : List.Pairwise (fun a b => semverGtB b.version a.version = true) migs) :
    up cwd dir now loadConfig md5 db listing contents =
      .ok (⟨true, db.rows ++ (pendingMigrations migs applied (lastLedger db)).map
          (appliedRow md5 contents)⟩,
        (pendingMigrations migs applied (lastLedger db)).map (fun m => m.filepath)) ∧
    List.Pairwise (fun a b => semverGtB b.version a.version = true)
      (pendingMigrations migs applied (lastLedger db)) ∧
    (pendingMigrations migs applied (lastLedger db) ≠ [] →
      ∃ lm, (pendingMigrations migs applied (lastLedger db)).getLast? = some lm ∧
        (db.rows ++ (pendingMigrations migs applied (lastLedger db)).map
          (appliedRow md5 contents)).getLast? = some (appliedRow md5 contents lm)) := by
  refine ⟨up_spec cwd dir now loadConfig md5 db listing contents migs applied
    hlc hnc hfs happ hver hsl, ?_, ?_⟩
  · exact ((hasc.filter _).filter _).filter _
  · intro hne
    cases hlast : (pendingMigrations migs applied (lastLedger db)).getLast? with
    | none => exact absurd (List.getLast?_eq_none_iff.mp hlast) hne
    | some lm =>
      refine ⟨lm, rfl, ?_⟩
      have hmapne : (pendingMigrations migs applied (lastLedger db)).map
          (appliedRow md5 contents) ≠ [] := by
        simpa using hne
      rw [List.getLast?_append_of_ne_nil db.rows hmapne, List.getLast?_map]
      rw [hlast]
      rfl

/-- Witness for C1 (amended) at the spec example: empty ledger, ascending
listing 1.0.0, 2.0.0, 3.0.0 — all are applied ascending and the last ledger
row is 3.0.0. -/
theorem claim_C1_listing_order_witness :
    up "cwd".toList "mig".toList [] (fun _ => none) (fun _ => []) ⟨true, []⟩
      ["1.0.0U__a.sql".toList, "2.0.0U__b.sql".toList, "3.0.0U__c.sql".toList]
      (fun _ => []) =
      .ok (⟨true, [⟨"1.0.0".toList, "a".toList, "1.0.0U__a.sql".toList, []⟩,
                   ⟨"2.0.0".toList, "b".toList, "2.0.0U__b.sql".toList, []⟩,
                   ⟨"3.0.0".toList, "c".toList, "3.0.0U__c.sql".toList, []⟩]⟩,
        [pathJoin "mig".toList "1.0.0U__a.sql".toList,
         pathJoin "mig".toList "2.0.0U__b.sql".toList,
         pathJoin "mig".toList "3.0.0U__c.sql".toList]) ∧
    semverGtB "3.0.0".toList "2.0.0".toList = true ∧
    semverGtB "2.0.0".toList "1.0.0".toList = true := by
  have h := claim_C1_listing_order "cwd".toList "mig".toList [] (fun _ => none)
    (fun _ => []) ⟨true, []⟩
    ["1.0.0U__a.sql".toList, "2.0.0U__b.sql".toList, "3.0.0U__c.sql".toList]
    (fun _ => []) _ _ (fun _ => rfl) (by intro h; simp at h) rfl rfl
    (by decide) (by decide) (by decide)
  exact ⟨h.1.trans (by rfl), by decide, by decide⟩

/-! ### Correctness of the depth-first topological sort

The completed stack satisfies: every child of a stacked node is stacked
strictly earlier.  `Before l a b` states that `a` occurs strictly before `b`
in `l`. -/

def Before (l : List Str) (a b : Str) : Prop :=
  ∃ l₁ l₂, l = l₁ ++ l₂ ∧ a ∈ l₁ ∧ b ∈ l₂

def Good (adj : Str → List Str) (l : List Str) : Prop :=
  ∀ u ∈ l, ∀ v ∈ adj u, v ∈ l ∧ Before l v u

theorem Before_append {l e : List Str} {a b : Str} (h : Before l a b) :
    Before (l ++ e) a b := by
  rcases h with ⟨l₁, l₂, rfl, ha, hb⟩
  exact ⟨l₁, l₂ ++ e, by rw [List.append_assoc], ha, List.mem_append_left e hb⟩

theorem Before_push {l : List Str} {b k : Str} (h : b ∈ l) : Before (l ++ [k]) b k :=
  ⟨l, [k], rfl, h, List.mem_singleton.mpr rfl⟩

/-- The invariant facts of a successful `explore` call. -/
def ExploreFacts (names : List Str) (adj : Str → List Str)
    (path : List Str) (key : Str) (st st' : List Str) : Prop :=
  (∃ ext, st' = st ++ ext ∧ ∀ x ∈ ext, x ∉ path ∧ x ∈ names) ∧
  key ∈ st' ∧ (st.Nodup → st'.Nodup) ∧ (Good adj st → Good adj st')

/-- The invariant facts of a successful `exploreChildren` run. -/
def ChildrenFacts (names : List Str) (adj : Str → List Str)
    (path : List Str) (cs : List Str) (st st' : List Str) : Prop :=
  (∃ ext, st' = st ++ ext ∧ ∀ x ∈ ext, x ∉ path ∧ x ∈ names) ∧
  (∀ c ∈ cs, c ∈ st') ∧ (st.Nodup → st'.Nodup) ∧ (Good adj st → Good adj st')

theorem exploreChildren_ok {names : List Str} {adj : Str → List Str} {fuel : Nat}
    (hP : ∀ path key st st', key ∈ names →
      explore adj fuel path key st = .ok st' → ExploreFacts names adj path key st st') :
    ∀ cs path st st', (∀ c ∈ cs, c ∈ names) →
      exploreChildren (explore adj fuel) path cs st = .ok st' →
      ChildrenFacts names adj path cs st st' := by
  intro cs
  induction cs with
  | nil =>
    intro path st st' hcs h
    cases h
    exact ⟨⟨[], by simp, by simp⟩, by simp, id, id⟩
  | cons c cs ih =>
    intro path st st' hcs h
    unfold exploreChildren at h
    cases hE : explore adj fuel path c st with
    | error e => rw [hE] at h; cases h
    | ok st2 =>
      rw [hE] at h
      simp only [exceptBind_ok] at h
      rcases hP path c st st2 (hcs c (List.mem_cons_self c cs)) hE with
        ⟨⟨e1, he1e, he1⟩, hcmem, hnd1, hg1⟩
      subst he1e
      rcases ih path (st ++ e1) st' (fun x hx => hcs x (List.mem_cons_of_mem c hx)) h with
        ⟨⟨e2, rfl, he2⟩, hcs2, hnd2, hg2⟩
      refine ⟨⟨e1 ++ e2, by rw [List.append_assoc], ?_⟩, ?_, fun hn => hnd2 (hnd1 hn),
        fun hg => hg2 (hg1 hg)⟩
      · intro x hx
        rcases List.mem_append.mp hx with hx | hx
        · exact he1 x hx
        · exact he2 x hx
      · intro x hx
        rcases List.mem_cons.mp hx with rfl | hx
        · exact List.mem_append_left e2 hcmem
        · exact hcs2 x hx

theorem explore_ok {names : List Str} {adj : Str → List Str}
    (hadj : ∀ u v, v ∈ adj u → v ∈ names) :
    ∀ fuel path key st st', key ∈ names →
      explore adj fuel path key st = .ok st' → ExploreFacts names adj path key st st' := by
  intro fuel
  induction fuel with
  | zero =>
    intro path key st st' hk h
    rw [explore_zero] at h
    cases h
  | succ f ih =>
    intro path key st st' hk h
    rw [explore_succ] at h
    unfold exploreStep at h
    by_cases hpath : key ∈ path
    · rw [if_pos hpath] at h; cases h
    · rw [if_neg hpath] at h
      by_cases hstk : key ∈ st
      · rw [if_pos hstk] at h
        cases h
        exact ⟨⟨[], by simp, by simp⟩, hstk, id, id⟩
      · rw [if_neg hstk] at h
        cases hC : exploreChildren (explore adj f) (path ++ [key]) (adj key) st with
        | error e => rw [hC] at h; cases h
        | ok st2 =>
          rw [hC] at h
          simp only [exceptBind_ok] at h
          cases h
          rcases exploreChildren_ok ih (adj key) (path ++ [key]) st st2
            (fun c hc => hadj key c hc) hC with ⟨⟨ext, rfl, hext⟩, hch, hnd, hg⟩
          have hknotext : key ∉ ext := by
            intro hke
            exact (hext key hke).1 (List.mem_append_right path (List.mem_singleton.mpr rfl))
          have hknotst2 : key ∉ st ++ ext := by
            intro hm
            rcases List.mem_append.mp hm with hm | hm
            · exact hstk hm
            · exact hknotext hm
          refine ⟨⟨ext ++ [key], by rw [List.append_assoc], ?_⟩,
            List.mem_append_right _ (List.mem_singleton.mpr rfl), ?_, ?_⟩
          · intro x hx
            rcases List.mem_append.mp hx with hx | hx
            · have := hext x hx
              exact ⟨fun hp => this.1 (List.mem_append_left _ hp), this.2⟩
            · rcases List.mem_singleton.mp hx with rfl
              exact ⟨hpath, hk⟩
          · intro hn
            rw [← List.concat_eq_append]
            exact List.Nodup.concat hknotst2 (hnd hn)
          · intro hgood
            have hg2 := hg hgood
            intro u hu v hv
            rcases List.mem_append.mp hu with hu | hu
            · rcases hg2 u hu v hv with ⟨hv2, hb⟩
              exact ⟨List.mem_append_left _ hv2, Before_append hb⟩
            · rcases List.mem_singleton.mp hu with rfl
              have hv2 := hch v hv
              exact ⟨List.mem_append_left _ hv2, Before_push hv2⟩

theorem sortLoop_ok {names : List Str} {adj : Str → List Str}
    (hadj : ∀ u v, v ∈ adj u → v ∈ names) (fuel : Nat) :
    ∀ keys st st', (∀ k ∈ keys, k ∈ names) →
      sortLoop adj fuel keys st = .ok st' →
      (∃ ext, st' = st ++ ext ∧ ∀ x ∈ ext, x ∈ names) ∧
      (∀ k ∈ keys, k ∈ st') ∧ (st.Nodup → st'.Nodup) ∧
      (Good adj st → Good adj st') := by
  intro keys
  induction keys with
  | nil =>
    intro st st' hks h
    cases h
    exact ⟨⟨[], by simp, by simp⟩, by simp, id, id⟩
  | cons k ks ih =>
    intro st st' hks h
    unfold sortLoop at h
    cases hE : explore adj fuel [] k st with
    | error e => rw [hE] at h; cases h
    | ok st2 =>
      rw [hE] at h
      simp only [exceptBind_ok] at h
      rcases explore_ok hadj fuel [] k st st2 (hks k (List.mem_cons_self k ks)) hE with
        ⟨⟨e1, he1e, he1⟩, hkmem, hnd1, hg1⟩
      subst he1e
      rcases ih (st ++ e1) st' (fun x hx => hks x (List.mem_cons_of_mem k hx)) h with
        ⟨⟨e2, rfl, he2⟩, hks2, hnd2, hg2⟩
      refine ⟨⟨e1 ++ e2, by rw [List.append_assoc], ?_⟩, ?_, fun hn => hnd2 (hnd1 hn),
        fun hg => hg2 (hg1 hg)⟩
      · intro x hx
        rcases List.mem_append.mp hx with hx | hx
        · exact (he1 x hx).2
        · exact he2 x hx
      · intro x hx
        rcases List.mem_cons.mp hx with rfl | hx
        · exact List.mem_append_left e2 hkmem
        · exact hks2 x hx

/-- Position of the first occurrence of a key in a list of keys. -/
def posIn : List Str → Str → Nat
  | [], _ => 0
  | x :: xs, a => if x = a then 0 else posIn xs a + 1

theorem posIn_lt_length {l : List Str} {a : Str} (h : a ∈ l) : posIn l a < l.length := by
  induction l with
  | nil => simp at h
  | cons x xs ih =>
    unfold posIn
    by_cases hx : x = a
    · simp [hx]
    · rcases List.mem_cons.mp h with rfl | h
      · exact absurd rfl hx
      · simpa [hx] using ih h

theorem posIn_append_of_mem {l₁ l₂ : List Str} {a : Str} (h : a ∈ l₁) :
    posIn (l₁ ++ l₂) a = posIn l₁ a := by
  induction l₁ with
  | nil => simp at h
  | cons x xs ih =>
    rw [List.cons_append]
    unfold posIn
    by_cases hx : x = a
    · simp [hx]
    · rcases List.mem_cons.mp h with rfl | h
      · exact absurd rfl hx
      · simp [hx, ih h]

theorem posIn_append_of_not_mem {l₁ l₂ : List Str} {a : Str} (h : a ∉ l₁) :
    posIn (l₁ ++ l₂) a = l₁.length + posIn l₂ a := by
  induction l₁ with
  | nil => simp
  | cons x xs ih =>
    rw [List.cons_append]
    have hx : x ≠ a := fun hx => h (hx ▸ List.mem_cons_self x xs)
    have h' : a ∉ xs := fun hm => h (List.mem_cons_of_mem x hm)
    rw [show posIn (x :: (xs ++ l₂)) a =
      if x = a then 0 else posIn (xs ++ l₂) a + 1 from rfl, if_neg hx, ih h']
    simp only [List.length_cons]
    omega

theorem Before_posIn {l : List Str} {a b : Str} (h : Before l a b) (hn : l.Nodup) :
    posIn l a < posIn l b := by
  rcases h with ⟨l₁, l₂, rfl, ha, hb⟩
  have hdis := (List.nodup_append.mp hn).2.2
  have hbnot : b ∉ l₁ := fun hbm => hdis hbm hb
  rw [posIn_append_of_mem ha, posIn_append_of_not_mem hbnot]
  have := posIn_lt_length ha
  omega

theorem find_by_name {tables : List Table} {k : Str} (hk : k ∈ tableNames tables) :
    ∃ t, tables.find? (fun t => t.name == k) = some t ∧ t.name = k ∧ t ∈ tables := by
  induction tables with
  | nil => simp [tableNames] at hk
  | cons s ss ih =>
    by_cases hs : s.name = k
    · refine ⟨s, ?_, hs, List.mem_cons_self s ss⟩
      rw [List.find?_cons_of_pos (p := fun t => t.name == k) ss (by simpa using hs)]
    · have hk' : k ∈ tableNames ss := by
        rcases (by simpa [tableNames] using hk :
            k = s.name ∨ ∃ a ∈ ss, a.name = k) with hk2 | ⟨a, ha, hname⟩
        · exact absurd hk2.symm hs
        · exact List.mem_map.mpr ⟨a, ha, hname⟩
      rcases ih hk' with ⟨t, hfind, hname, hmem⟩
      refine ⟨t, ?_, hname, List.mem_cons_of_mem s hmem⟩
      rw [List.find?_cons_of_neg (p := fun t => t.name == k) ss (by simpa using hs)]
      exact hfind

theorem find_self : ∀ {tables : List Table} {t : Table}, t ∈ tables →
    (tableNames tables).Nodup →
    tables.find? (fun x => x.name == t.name) = some t := by
  intro tables
  induction tables with
  | nil => intro t ht _; simp at ht
  | cons s ss ih =>
    intro t ht hnd
    have hnd' : (s.name :: tableNames ss).Nodup := by simpa [tableNames] using hnd
    rcases List.mem_cons.mp ht with rfl | ht
    · rw [List.find?_cons_of_pos (p := fun x => x.name == t.name) ss (by simp)]
    · have hhead := (List.nodup_cons.mp hnd').1
      have hne : ¬ ((fun x => x.name == t.name) s = true) := by
        simp only [beq_iff_eq]
        intro he
        exact hhead (he ▸ List.mem_map.mpr ⟨t, ht, rfl⟩)
      rw [List.find?_cons_of_neg (p := fun x => x.name == t.name) ss hne]
      exact ih ht (List.nodup_cons.mp hnd').2

/-- Mapping sorted keys back to their tables preserves the key sequence. -/
theorem filterMap_find_names {tables : List Table} :
    ∀ keys : List Str, (∀ k ∈ keys, k ∈ tableNames tables) →
      (keys.filterMap (fun k => tables.find? (fun t => t.name == k))).map
        (fun t => t.name) = keys := by
  intro keys
  induction keys with
  | nil => intro _; rfl
  | cons k ks ih =>
    intro hks
    rcases find_by_name (hks k (List.mem_cons_self k ks)) with ⟨t, hfind, hname, _⟩
    rw [List.filterMap_cons, hfind, List.map_cons, hname,
      ih (fun x hx => hks x (List.mem_cons_of_mem k hx))]

/-- A successful sort produces a completed DFS stack: its reverse is the
sorted key order, it is a permutation of the table names, and every
dependency edge points strictly earlier in the stack. -/
theorem sortTablesByReferences_ok {tables : List Table} {sorted : List Table}
    (hnd : (tableNames tables).Nodup)
    (h : sortTablesByReferences tables = .ok sorted) :
    ∃ stack : List Str,
      sorted = stack.reverse.filterMap (fun k => tables.find? (fun t => t.name == k)) ∧
      stack.Perm (tableNames tables) ∧ stack.Nodup ∧ Good (tablesAdj tables) stack := by
  unfold sortTablesByReferences at h
  simp only at h
  by_cases hval : tables.all
      (fun t => t.references.all (fun r => (tableNames tables).contains r.tableNameRef))
  · rw [if_pos hval] at h
    have hadj : ∀ u v, v ∈ tablesAdj tables u → v ∈ tableNames tables := by
      intro u v hv
      unfold tablesAdj at hv
      cases hfind : tables.find? (fun t => t.name == u) with
      | none => rw [hfind] at hv; simp at hv
      | some t =>
        rw [hfind] at hv
        have ht : t ∈ tables := List.mem_of_find?_eq_some hfind
        rcases List.mem_map.mp hv with ⟨r, hr, rfl⟩
        have h1 := List.all_eq_true.mp hval t ht
        have h2 := List.all_eq_true.mp h1 r hr
        simpa using h2
    cases hloop : sortLoop (tablesAdj tables) ((tableNames tables).length + 1)
        (tableNames tables) [] with
    | error e => rw [hloop] at h; cases h
    | ok stack =>
      rw [hloop] at h
      simp only [exceptBind_ok] at h
      cases h
      rcases sortLoop_ok hadj _ (tableNames tables) [] stack (fun k hk => hk) hloop with
        ⟨⟨ext, hext, hextnames⟩, hallmem, hnodup, hgood⟩
      have hstacknames : ∀ x ∈ stack, x ∈ tableNames tables := by
        intro x hx
        rw [hext] at hx
        exact hextnames x (by simpa using hx)
      have hsnd : stack.Nodup := hnodup List.nodup_nil
      refine ⟨stack, rfl, ?_, hsnd, hgood (by intro u hu; simp at hu)⟩
      exact (List.perm_ext_iff_of_nodup hsnd hnd).mpr
        (fun a => ⟨fun ha => hstacknames a ha, fun ha => hallmem a ha⟩)
  · rw [if_neg hval] at h
    cases h

/-- C5: on every config the assembler accepts, the tables are rendered into
the up document in an order where every referenced table's CREATE statement
comes before each of its referencers, the rendered tables are exactly the
config's tables, and the down document renders them in the exact reverse
order. -/
theorem claim_C5_topological_order (now : Str) (cfg : SqlFileConfig)
    (hnd : (tableNames cfg.tables).Nodup)
    (hok : ∃ docs, generateSqlFileContent now cfg = .ok docs) :
    ∃ sorted, sortTablesByReferences cfg.tables = .ok sorted ∧
      ((upDocTables sorted).map (fun t => t.name)).Perm (tableNames cfg.tables) ∧
      (∀ t ∈ cfg.tables, ∀ r ∈ t.references,
        posIn ((upDocTables sorted).map (fun t => t.name)) r.tableNameRef <
          posIn ((upDocTables sorted).map (fun t => t.name)) t.name) ∧
      (downDocTables sorted).map (fun t => t.name) =
        (((upDocTables sorted).map (fun t => t.name)).reverse) := by
  rcases hok with ⟨docs, hdocs⟩
  unfold generateSqlFileContent at hdocs
  cases hs : sortTablesByReferences cfg.tables with
  | error e => rw [hs] at hdocs; cases hdocs
  | ok sorted =>
    rcases sortTablesByReferences_ok hnd hs with ⟨stack, hsorted, hperm, hnodup, hgood⟩
    have hkeys : ∀ k ∈ stack.reverse, k ∈ tableNames cfg.tables := by
      intro k hk
      exact hperm.mem_iff.mp (List.mem_reverse.mp hk)
    have hmapname : sorted.map (fun t => t.name) = stack.reverse := by
      rw [hsorted]
      exact filterMap_find_names stack.reverse hkeys
    have hup : (upDocTables sorted).map (fun t => t.name) = stack := by
      unfold upDocTables
      rw [List.map_reverse, hmapname, List.reverse_reverse]
    refine ⟨sorted, rfl, ?_, ?_, ?_⟩
    · rw [hup]; exact hperm
    · intro t ht r hr
      rw [hup]
      have hu : t.name ∈ stack := hperm.mem_iff.mpr (List.mem_map.mpr ⟨t, ht, rfl⟩)
      have hadjmem : r.tableNameRef ∈ tablesAdj cfg.tables t.name := by
        unfold tablesAdj
        rw [find_self ht hnd]
        exact List.mem_map.mpr ⟨r, hr, rfl⟩
      rcases hgood t.name hu r.tableNameRef hadjmem with ⟨hv, hb⟩
      exact Before_posIn hb hnodup
    · unfold downDocTables
      rw [hmapname, hup]

/-- The two-table example config: table a references table b. -/
def exampleTableA : Table :=
  { name := "a".toList, columns := [],
    references := [⟨"b_id".toList, "b".toList, false⟩],
    types := [], plugins := [], options := ⟨false⟩ }

def exampleTableB : Table :=
  { name := "b".toList, columns := [], references := [],
    types := [], plugins := [], options := ⟨false⟩ }

/-- Table b mutually referencing table a, for the cyclic example. -/
def exampleTableBCyc : Table :=
  { name := "b".toList, columns := [],
    references := [⟨"a_id".toList, "a".toList, false⟩],
    types := [], plugins := [], options := ⟨false⟩ }

def exampleConfig : SqlFileConfig := ⟨[], [], [exampleTableA, exampleTableB]⟩

def exampleCycleConfig : SqlFileConfig := ⟨[], [], [exampleTableA, exampleTableBCyc]⟩

/-- Witness for C5 at a two-table config where table a references table b:
the up document creates b before a and the down document drops in reverse. -/
theorem claim_C5_topological_order_witness :
    ∃ sorted, sortTablesByReferences exampleConfig.tables = .ok sorted ∧
      ((upDocTables sorted).map (fun t => t.name)).Perm
        (tableNames exampleConfig.tables) ∧
      (∀ t ∈ exampleConfig.tables, ∀ r ∈ t.references,
        posIn ((upDocTables sorted).map (fun t => t.name)) r.tableNameRef <
          posIn ((upDocTables sorted).map (fun t => t.name)) t.name) ∧
      (downDocTables sorted).map (fun t => t.name) =
        (((upDocTables sorted).map (fun t => t.name)).reverse) :=
  claim_C5_topological_order [] exampleConfig (by decide) ⟨_, rfl⟩

/-! ### Any cycle makes the sort fail with the cyclic-dependency error -/

theorem exploreChildren_error {names : List Str} {adj : Str → List Str} {fuel : Nat}
    (hPE : ∀ path key st e, key ∈ names → (∀ x ∈ path, x ∈ names) → path.Nodup →
      names.length + 1 ≤ fuel + path.length →
      explore adj fuel path key st = .error e → e = sortCycleMsg) :
    ∀ cs path st e, (∀ c ∈ cs, c ∈ names) → (∀ x ∈ path, x ∈ names) → path.Nodup →
      names.length + 1 ≤ fuel + path.length →
      exploreChildren (explore adj fuel) path cs st = .error e → e = sortCycleMsg := by
  intro cs
  induction cs with
  | nil =>
    intro path st e _ _ _ _ h
    cases h
  | cons c cs ih =>
    intro path st e hcs hpath hnd hlen h
    unfold exploreChildren at h
    cases hE : explore adj fuel path c st with
    | error e2 =>
      rw [hE] at h
      simp only [exceptBind_error] at h
      cases h
      exact hPE path c st e (hcs c (List.mem_cons_self c cs)) hpath hnd hlen hE
    | ok st2 =>
      rw [hE] at h
      simp only [exceptBind_ok] at h
      exact ih path st2 e (fun x hx => hcs x (List.mem_cons_of_mem c hx)) hpath hnd hlen h

theorem explore_error {names : List Str} {adj : Str → List Str}
    (hadj : ∀ u v, v ∈ adj u → v ∈ names) :
    ∀ fuel path key st e, key ∈ names → (∀ x ∈ path, x ∈ names) → path.Nodup →
      names.length + 1 ≤ fuel + path.length →
      explore adj fuel path key st = .error e → e = sortCycleMsg := by
  intro fuel
  induction fuel with
  | zero =>
    intro path key st e hk hpath hnd hlen h
    exfalso
    have : path.length ≤ names.length :=
      (List.subperm_of_subset hnd (fun x hx => hpath x hx)).length_le
    omega
  | succ f ih =>
    intro path key st e hk hpath hnd hlen h
    rw [explore_succ] at h
    unfold exploreStep at h
    by_cases hp : key ∈ path
    · rw [if_pos hp] at h
      cases h
      rfl
    · rw [if_neg hp] at h
      by_cases hstk : key ∈ st
      · rw [if_pos hstk] at h; cases h
      · rw [if_neg hstk] at h
        cases hC : exploreChildren (explore adj f) (path ++ [key]) (adj key) st with
        | error e2 =>
          rw [hC] at h
          simp only [exceptBind_error] at h
          cases h
          refine exploreChildren_error ih (adj key) (path ++ [key]) st e
            (fun c hc => hadj key c hc) ?_ ?_ ?_ hC
          · intro x hx
            rcases List.mem_append.mp hx with hx | hx
            · exact hpath x hx
            · rcases List.mem_singleton.mp hx with rfl
              exact hk
          · rw [← List.concat_eq_append]
            exact List.Nodup.concat hp hnd
          · simp only [List.length_append, List.length_cons, List.length_nil]
            omega
        | ok st2 =>
          rw [hC] at h
          simp only [exceptBind_ok] at h
          cases h

theorem sortLoop_error {names : List Str} {adj : Str → List Str}
    (hadj : ∀ u v, v ∈ adj u → v ∈ names) :
    ∀ keys st e, (∀ k ∈ keys, k ∈ names) →
      sortLoop adj (names.length + 1) keys st = .error e → e = sortCycleMsg := by
  intro keys
  induction keys with
  | nil => intro st e _ h; cases h
  | cons k ks ih =>
    intro st e hks h
    unfold sortLoop at h
    cases hE : explore adj (names.length + 1) [] k st with
    | error e2 =>
      rw [hE] at h
      simp only [exceptBind_error] at h
      cases h
      exact explore_error hadj (names.length + 1) [] k st e
        (hks k (List.mem_cons_self k ks)) (by intro x hx; simp at hx) List.nodup_nil
        (by simp) hE
    | ok st2 =>
      rw [hE] at h
      simp only [exceptBind_ok] at h
      exact ih st2 e (fun x hx => hks x (List.mem_cons_of_mem k hx)) h

/-- A dependency edge of the schema config: table `a` declares a reference
to table `b`. -/
def TableEdge (tables : List Table) (a b : Str) : Prop :=
  ∃ t ∈ tables, t.name = a ∧ ∃ r ∈ t.references, r.tableNameRef = b

instance (tables : List Table) (a b : Str) : Decidable (TableEdge tables a b) := by
  unfold TableEdge
  infer_instance

/-- The table-reference graph contains a cycle: a chain of edges from some
node back to itself. -/
def HasRefCycle (tables : List Table) : Prop :=
  ∃ u l, List.Chain (TableEdge tables) u l ∧
    TableEdge tables ((u :: l).getLast (List.cons_ne_nil u l)) u

theorem chain_getLast_le {E : Str → Str → Prop} {f : Str → Nat}
    (hE : ∀ a b, E a b → f b < f a) :
    ∀ u l, List.Chain E u l → f ((u :: l).getLast (List.cons_ne_nil u l)) ≤ f u := by
  intro u l
  induction l generalizing u with
  | nil => intro _; exact Nat.le_refl _
  | cons b l ih =>
    intro hch
    rcases List.chain_cons.mp hch with ⟨hub, hbl⟩
    have h1 := ih b hbl
    have h2 := hE u b hub
    rw [List.getLast_cons (List.cons_ne_nil b l)]
    omega

/-- C4: a schema config whose reference graph contains a cycle (and whose
references all resolve to config tables, so edge insertion succeeds) makes
`generateSqlFileContent` fail with the cyclic-dependency error, producing no
up or down SQL. -/
theorem claim_C4_cycle_error (now : Str) (cfg : SqlFileConfig)
    (hnd : (tableNames cfg.tables).Nodup)
    (hval : ∀ t ∈ cfg.tables, ∀ r ∈ t.references, r.tableNameRef ∈ tableNames cfg.tables)
    (hcyc : HasRefCycle cfg.tables) :
    generateSqlFileContent now cfg = .error sortCycleMsg := by
  have hvalb : cfg.tables.all
      (fun t => t.references.all
        (fun r => (tableNames cfg.tables).contains r.tableNameRef)) = true := by
    rw [List.all_eq_true]
    intro t ht
    rw [List.all_eq_true]
    intro r hr
    simpa using hval t ht r hr
  have hadj : ∀ u v, v ∈ tablesAdj cfg.tables u → v ∈ tableNames cfg.tables := by
    intro u v hv
    unfold tablesAdj at hv
    cases hfind : cfg.tables.find? (fun t => t.name == u) with
    | none => rw [hfind] at hv; simp at hv
    | some t =>
      rw [hfind] at hv
      rcases List.mem_map.mp hv with ⟨r, hr, rfl⟩
      exact hval t (List.mem_of_find?_eq_some hfind) r hr
  have hsort : sortTablesByReferences cfg.tables = .error sortCycleMsg := by
    cases hs : sortTablesByReferences cfg.tables with
    | ok sorted =>
      exfalso
      rcases sortTablesByReferences_ok hnd hs with ⟨stack, _, hperm, hnodup, hgood⟩
      have hEdec : ∀ a b, TableEdge cfg.tables a b → posIn stack b < posIn stack a := by
        intro a b he
        rcases he with ⟨t, ht, rfl, r, hr, rfl⟩
        have hu : t.name ∈ stack := hperm.mem_iff.mpr (List.mem_map.mpr ⟨t, ht, rfl⟩)
        have hadjmem : r.tableNameRef ∈ tablesAdj cfg.tables t.name := by
          unfold tablesAdj
          rw [find_self ht hnd]
          exact List.mem_map.mpr ⟨r, hr, rfl⟩
        rcases hgood t.name hu r.tableNameRef hadjmem with ⟨_, hb⟩
        exact Before_posIn hb hnodup
      rcases hcyc with ⟨u, l, hch, hback⟩
      have h1 := chain_getLast_le hEdec u l hch
      have h2 := hEdec _ _ hback
      omega
    | error e =>
      unfold sortTablesByReferences at hs
      simp only at hs
      rw [if_pos hvalb] at hs
      cases hloop : sortLoop (tablesAdj cfg.tables)
          ((tableNames cfg.tables).length + 1) (tableNames cfg.tables) [] with
      | error e2 =>
        rw [hloop] at hs
        simp only [exceptBind_error] at hs
        cases hs
        rw [sortLoop_error hadj (tableNames cfg.tables) [] e (fun k hk => hk) hloop]
      | ok stack =>
        rw [hloop] at hs
        simp only [exceptBind_ok] at hs
        cases hs
  unfold generateSqlFileContent
  rw [hsort]
  rfl

/-- Witness for C4 at two mutually referencing tables. -/
theorem claim_C4_cycle_error_witness :
    generateSqlFileContent [] exampleCycleConfig = .error sortCycleMsg :=
  claim_C4_cycle_error [] exampleCycleConfig (by decide) (by decide)
    ⟨"a".toList, ["b".toList],
      List.Chain.cons (by decide) List.Chain.nil, by decide⟩

end SqlMirror
